import Mathlib

/-!
Verification development for the hydrus-automate rule execution engine.

The definitions below are shallow embeddings of the Python source under
`src/py/`.  Python dicts read from sqlite rows are embedded as structures
whose fields are `Option`-valued where the source performs fallible
extraction (`KeyError` / `json.JSONDecodeError`); Python ints are `Int`;
service keys, rule ids and file hashes are `String`.
-/

namespace Hydrus

/-! ### Override resolver (`rule_processing/overrides.py`) -/

/-- The slice of `RuleExecutionContext` (`rule_processing/context.py`) used by
the override resolver: rule id, the bypass list, the action type string,
`rule_importance = int(rule.get('priority', 1))`, and the action's
`rating_service_key` / `destination_service_keys` fields (absent dict keys
are `none` / `[]`). -/
structure Ctx where
  ruleId : String
  overrideBypassList : List String
  actionType : String
  ruleImportance : Int
  ratingServiceKey : Option String
  destinationServiceKeys : List String
deriving Repr, DecidableEq

/-- A raw row of the `files` state table, read through `sqlite3.Row`
(`database.py` sets `row_factory`).  For each JSON-text column the outer
`Option` level records whether the column is present in the row (`none` =
absent: `sqlite3.Row.__getitem__` raises an `IndexError`, which the
source's `except (KeyError, json.JSONDecodeError)` handlers do NOT catch),
and the inner level whether its text parses (`some none` = present but
`json.loads` raises the caught `JSONDecodeError`; `some (some v)` = parsed
value `v`).  `force_in_priority_governance` is read without `json.loads`,
so only the present/absent level applies to it. -/
structure DbRow where
  rulesInApplication : Option (Option (List String))
  forceInPriorityGovernance : Option Int
  correctPlacement : Option (Option (List String))
  affectedRatingServices : Option (Option (List String))
  ratingPriorityGovernance : Option (Option (List (String × Int)))
deriving Repr, DecidableEq

/-- Fully parsed per-file governance state (the `state` dict built by
`update_state_after_success`). -/
structure FileState where
  rulesInApplication : List String
  forceInPriorityGovernance : Int
  correctPlacement : List String
  affectedRatingServices : List String
  ratingPriorityGovernance : List (String × Int)
deriving Repr, DecidableEq

/-- Model of `_get_default_file_state` in `overrides.py`. -/
def getDefaultFileState : FileState :=
  { rulesInApplication := []
  , forceInPriorityGovernance := -1
  , correctPlacement := []
  , affectedRatingServices := []
  , ratingPriorityGovernance := [] }

/-- Lookup in a JSON-object-as-association-list, i.e. Python `dict.get`:
the last binding of a key wins (dict insertion keeps one binding per key;
our encoding stores one binding per key as well, see `setAssoc`). -/
def assocGet (m : List (String × Int)) (k : String) : Option Int :=
  (m.find? (fun e => e.1 = k)).map (·.2)

/-- Python `d[k] = v` on a dict encoded as an association list with at most
one binding per key: overwrite in place, else append. -/
def setAssoc (m : List (String × Int)) (k : String) (v : Int) : List (String × Int) :=
  if m.any (fun e => e.1 = k) then
    m.map (fun e => if e.1 = k then (k, v) else e)
  else
    m ++ [(k, v)]

/-- The three action types governed by the override system. -/
def governedActionTypes : List String := ["add_to", "force_in", "modify_rating"]

/-- Model of `check_override(ctx, file_hash)` from `overrides.py`, with the
`files`-table lookup abstracted into the `row : Option DbRow` argument
(`none` = no row for the hash).  Returns `some` (status, reason) on normal
return; `none` models the uncaught `IndexError` that `sqlite3.Row` raises
when the `force_in_priority_governance` or `rating_priority_governance`
column is absent — the `except (KeyError, json.JSONDecodeError)` handler
catches only a failing `json.loads` of a present
`rating_priority_governance` column. -/
def checkOverride (ctx : Ctx) (row : Option DbRow) : Option (String × Option String) :=
  if ctx.ruleId ∈ ctx.overrideBypassList then
    some ("run", some "Override bypassed by user for manual run.")
  else if ctx.actionType ∉ governedActionTypes then
    some ("run", some "Action type does not use the override system.")
  else
    match row with
    | none => some ("run", some "File is not yet tracked in the override system.")
    | some fr =>
      match fr.forceInPriorityGovernance, fr.ratingPriorityGovernance with
      | none, _ => none
      | some _, none => none
      | some _, some none => some ("run", some "File has corrupted state data.")
      | some forceInPriority, some (some ratingPriority) =>
        if ctx.actionType = "modify_rating" then
          match ctx.ratingServiceKey with
          | none => some ("run", some "Modify_rating action is missing a service key.")
          | some k =>
            if k = "" then
              some ("run", some "Modify_rating action is missing a service key.")
            else
              let winningPriority := (assocGet ratingPriority k).getD (-1)
              if winningPriority < ctx.ruleImportance then some ("run", none)
              else
                some ("skipped", some ("A rule with priority " ++ toString winningPriority ++
                  " or higher has already won for this rating service."))
        else if ctx.actionType = "add_to" then
          if forceInPriority ≤ ctx.ruleImportance then some ("run", none)
          else
            some ("skipped", some ("A 'force_in' rule with higher priority (" ++
              toString forceInPriority ++ ") governs this file's placement."))
        else
          if forceInPriority < ctx.ruleImportance then some ("run", none)
          else
            some ("skipped", some ("Another 'force_in' rule with priority " ++
              toString forceInPriority ++ " or higher has already won."))

/-- Outcome of the `state = {...}` construction attempted by
`update_state_after_success` over an existing row: `crash` models the
uncaught `IndexError` from accessing an absent column, `corrupt` the caught
`JSONDecodeError` from a present column whose text fails `json.loads`, and
`ok st` the fully parsed state. -/
inductive ParseOutcome where
  | crash
  | corrupt
  | ok (st : FileState)
deriving Repr, DecidableEq

/-- The five-field load performed by `update_state_after_success`, in the
source's dict-literal evaluation order (`rules_in_application`,
`force_in_priority_governance`, `correct_placement`,
`affected_rating_services`, `rating_priority_governance`): the first absent
column raises the uncaught `IndexError` (`crash`), the first failing
`json.loads` before that raises the caught `JSONDecodeError`
(`corrupt`). -/
def parseFullRow (r : DbRow) : ParseOutcome :=
  match r.rulesInApplication with
  | none => .crash
  | some none => .corrupt
  | some (some a) =>
    match r.forceInPriorityGovernance with
    | none => .crash
    | some b =>
      match r.correctPlacement with
      | none => .crash
      | some none => .corrupt
      | some (some c) =>
        match r.affectedRatingServices with
        | none => .crash
        | some none => .corrupt
        | some (some d) =>
          match r.ratingPriorityGovernance with
          | none => .crash
          | some none => .corrupt
          | some (some e) =>
            .ok { rulesInApplication := a, forceInPriorityGovernance := b,
                  correctPlacement := c, affectedRatingServices := d,
                  ratingPriorityGovernance := e }

/-- The successfully parsed state, when the five-field load neither crashes
nor falls back to the default. -/
def parseFull (r : DbRow) : Option FileState :=
  match parseFullRow r with
  | .ok st => some st
  | _ => none

/-- The `INSERT OR REPLACE` at the end of `update_state_after_success`:
every column of the written row is present and well-formed JSON. -/
def writeRow (st : FileState) : DbRow :=
  { rulesInApplication := some (some st.rulesInApplication)
  , forceInPriorityGovernance := some st.forceInPriorityGovernance
  , correctPlacement := some (some st.correctPlacement)
  , affectedRatingServices := some (some st.affectedRatingServices)
  , ratingPriorityGovernance := some (some st.ratingPriorityGovernance) }

/-- The `add_to` placement loop: `for key in dest_keys: if key and key not in
state['correct_placement']: state['correct_placement'].append(key)`. -/
def addToPlacement (placement : List String) : List String → List String
  | [] => placement
  | k :: rest =>
    addToPlacement (if k ≠ "" ∧ k ∉ placement then placement ++ [k] else placement) rest

/-- Step 2 of `update_state_after_success`: mutate the parsed state
according to the successful action. -/
def applyActionToState (ctx : Ctx) (st : FileState) : FileState :=
  if ctx.actionType = "modify_rating" then
    match ctx.ratingServiceKey with
    | none => st
    | some k =>
      if k = "" then st
      else
        let st1 :=
          if k ∈ st.affectedRatingServices then st
          else { st with affectedRatingServices := st.affectedRatingServices ++ [k] }
        { st1 with ratingPriorityGovernance :=
            setAssoc st1.ratingPriorityGovernance k ctx.ruleImportance }
  else if ctx.actionType = "add_to" then
    { st with correctPlacement := addToPlacement st.correctPlacement ctx.destinationServiceKeys }
  else if ctx.actionType = "force_in" then
    { st with
      correctPlacement := ctx.destinationServiceKeys.filter (fun k => k ≠ ""),
      forceInPriorityGovernance := ctx.ruleImportance }
  else st

/-- Steps 2 and 3 of `update_state_after_success` from an initial state:
track the rule id, mutate per action type, write the row back. -/
def governedUpdate (ctx : Ctx) (st0 : FileState) : DbRow :=
  writeRow (applyActionToState ctx
    (if ctx.ruleId ∈ st0.rulesInApplication then st0
     else { st0 with rulesInApplication := st0.rulesInApplication ++ [ctx.ruleId] }))

/-- Model of `update_state_after_success(ctx, file_hash)` from `overrides.py`,
the DB read/write abstracted over `row : Option DbRow` (the stored row for
the hash).  The outer `Option` of the result models normal return (`some`,
carrying the stored row afterwards) versus the uncaught `IndexError` from an
absent column of an existing row (`none`): the `except (KeyError,
json.JSONDecodeError)` fallback to the default state catches only a failing
`json.loads`. -/
def updateStateAfterSuccess (ctx : Ctx) (row : Option DbRow) : Option (Option DbRow) :=
  if ctx.actionType ∉ governedActionTypes then some row
  else
    match row with
    | none => some (some (governedUpdate ctx getDefaultFileState))
    | some r =>
      match parseFullRow r with
      | .crash => none
      | .corrupt => some (some (governedUpdate ctx getDefaultFileState))
      | .ok st0 => some (some (governedUpdate ctx st0))

/-- The stored rating priority for a service, with the claim's `-1` default
when there is no row, no parsed governance object, or no key. -/
def storedRatingPrio (row : Option DbRow) (svc : String) : Int :=
  match row with
  | none => -1
  | some r =>
    match r.ratingPriorityGovernance with
    | some (some m) => (assocGet m svc).getD (-1)
    | _ => -1

/-! ### Batched API calls (`rule_processing/actions.py`, `batch_api_call_with_retry`) -/

/-- The shape of one `call_hydrus_api` result that the batch helper inspects:
the `success` flag, the `message` field (total here; the Python `.get`
fallback string is folded into the oracle) and the HTTP status. -/
structure ApiResult where
  success : Bool
  message : String
  status : Option Int
deriving Repr, DecidableEq

/-- One API call issued by the batch helper: either the bulk call for a
batch, or an individual retry call for a single item. -/
inductive BCall (α : Type) where
  | bulk (items : List α)
  | single (item : α)
deriving Repr, DecidableEq

/-- What `batch_api_call_with_retry` returns, plus the trace of API calls it
issued (in order), which the source performs through `call_hydrus_api`. -/
structure BatchResult (α : Type) where
  successfulItems : List α
  failedItemsWithErrors : List (α × String × Option Int)
  calls : List (BCall α)
deriving Repr, DecidableEq

/-- The consecutive slices `items_to_process[i : i + batch_size]` taken by
`for i in range(0, len(items_to_process), batch_size)`.  A zero step raises
in Python; we return `[]` and require `0 < bs` in every theorem. -/
def chunks (bs : Nat) : List α → List (List α)
  | [] => []
  | a :: t =>
    if bs = 0 then []
    else (a :: t).take bs :: chunks bs ((a :: t).drop bs)
termination_by l => l.length
decreasing_by
  simp only [List.length_drop, List.length_cons]
  omega

/-- The individual-retry inner loop: one single-item call per item of a
failed batch, appending to the running accumulators. -/
def retryLoop (singleRes : α → ApiResult) :
    List α → List α → List (α × String × Option Int) → List (BCall α) →
    List α × List (α × String × Option Int) × List (BCall α)
  | [], succ, failed, calls => (succ, failed, calls)
  | x :: t, succ, failed, calls =>
    let r := singleRes x
    if r.success then
      retryLoop singleRes t (succ ++ [x]) failed (calls ++ [BCall.single x])
    else
      retryLoop singleRes t succ (failed ++ [(x, r.message, r.status)]) (calls ++ [BCall.single x])

/-- The outer per-batch loop of `batch_api_call_with_retry`, over the list
of batches, threading the accumulators. -/
def batchLoop (bulkRes : List α → ApiResult) (singleRes : α → ApiResult) :
    List (List α) → List α → List (α × String × Option Int) → List (BCall α) →
    BatchResult α
  | [], succ, failed, calls => ⟨succ, failed, calls⟩
  | c :: rest, succ, failed, calls =>
    if c.isEmpty then batchLoop bulkRes singleRes rest succ failed calls
    else
      let br := bulkRes c
      if br.success then
        batchLoop bulkRes singleRes rest (succ ++ c) failed (calls ++ [BCall.bulk c])
      else
        let acc := retryLoop singleRes c succ failed (calls ++ [BCall.bulk c])
        batchLoop bulkRes singleRes rest acc.1 acc.2.1 acc.2.2

/-- Model of `batch_api_call_with_retry` from `actions.py`.  The two payload
formatters and `call_hydrus_api` are abstracted into the oracles `bulkRes`
(result of the one batch call for a given batch) and `singleRes` (result of
the individual retry call for a given item); `apiAddressConfigured` models
the `if not api_address` guard. -/
def batchApiCallWithRetry (apiAddressConfigured : Bool) (itemsToProcess : List α)
    (batchSize : Nat) (bulkRes : List α → ApiResult) (singleRes : α → ApiResult) :
    BatchResult α :=
  if itemsToProcess.isEmpty then ⟨[], [], []⟩
  else if ¬ apiAddressConfigured then
    ⟨[], itemsToProcess.map (fun x => (x, "API address not configured.", none)), []⟩
  else
    batchLoop bulkRes singleRes (chunks batchSize itemsToProcess) [] [] []

/-! ### Sequential search splitting (`rule_processing/translator.py`) -/

/-- An element of the `hydrus_predicates` list: a single predicate string or
an OR-group (list of alternative predicate strings; the source nests only
one level deep). -/
inductive HPred where
  | str (s : String)
  | group (g : List String)
deriving Repr, DecidableEq

/-- String prefix test on the underlying character lists (Python
`str.startswith`; equivalent to `String.startsWith`, stated on `List Char`
so that it evaluates by reduction). -/
def strStartsWith (s pre : String) : Bool :=
  pre.data.isPrefixOf s.data

/-- Model of `is_file_service_predicate` from
`prepare_sequential_searches_if_needed`. -/
def isFileServicePredicate (p : String) : Bool :=
  strStartsWith p "system:file service currently in " ||
  strStartsWith p "system:file service is not currently in "

/-- The number of file-service predicates inside an OR-group. -/
def fileServicePredCount (g : List String) : Nat :=
  (g.filter isFileServicePredicate).length

/-- A predicate-list element that can trigger sequential splitting: an
OR-group holding at least `minToSplit` file-service predicates. -/
def isSplittableGroup (minToSplit : Nat) : HPred → Bool
  | HPred.str _ => false
  | HPred.group g => minToSplit ≤ fileServicePredCount g

/-- The candidate-search loop of `prepare_sequential_searches_if_needed`:
scan indexed elements; `none` = a second splittable group was found (abort),
`some none` = no splittable group, `some (some (g, i))` = exactly one found
so far, the group `g` at index `i`. -/
def scanForCandidate (minToSplit : Nat) :
    List (HPred × Nat) → Option (List String × Nat) → Option (Option (List String × Nat))
  | [], acc => some acc
  | (HPred.str _, _) :: rest, acc => scanForCandidate minToSplit rest acc
  | (HPred.group g, _) :: rest, some x =>
    if minToSplit ≤ fileServicePredCount g then none
    else scanForCandidate minToSplit rest (some x)
  | (HPred.group g, i) :: rest, none =>
    if minToSplit ≤ fileServicePredCount g then
      scanForCandidate minToSplit rest (some (g, i))
    else scanForCandidate minToSplit rest none

/-- Indexed view of a list starting at `j`, mirroring Python
`enumerate`. -/
def enumeratedFrom (j : Nat) : List HPred → List (HPred × Nat)
  | [] => []
  | p :: t => (p, j) :: enumeratedFrom (j + 1) t

/-- Indexed view of a list, mirroring Python `enumerate`. -/
def enumerated (l : List HPred) : List (HPred × Nat) :=
  enumeratedFrom 0 l

/-- The query-reconstruction step of `prepare_sequential_searches_if_needed`
once the unique splittable group `splittableGroup` at index
`splittableGroupIndex` is known. -/
def splitQueries (hydrusPredicates : List HPred) (splittableGroup : List String)
    (splittableGroupIndex : Nat) : List (List HPred) :=
  let staticPredsOutsideOrGroup :=
    (enumerated hydrusPredicates).filterMap
      (fun e => if e.2 ≠ splittableGroupIndex then some e.1 else none)
  let commonPredsInOrGroup :=
    (splittableGroup.filter (fun p => ¬ isFileServicePredicate p)).map HPred.str
  let fileServicePredsForSequencing :=
    splittableGroup.filter isFileServicePredicate
  let basePredicates := staticPredsOutsideOrGroup ++ commonPredsInOrGroup
  fileServicePredsForSequencing.map (fun p => basePredicates ++ [HPred.str p])

/-- Dispatch on the outcome of the candidate scan: abort (two splittable
groups) and no-candidate both return the original predicates as a single
query. -/
def dispatchScan (hydrusPredicates : List HPred) :
    Option (Option (List String × Nat)) → List (List HPred)
  | none => [hydrusPredicates]
  | some none => [hydrusPredicates]
  | some (some (g, idx)) => splitQueries hydrusPredicates g idx

/-- Model of `prepare_sequential_searches_if_needed(hydrus_predicates, min_to_split)`
from `translator.py`. -/
def prepareSequentialSearchesIfNeeded (hydrusPredicates : List HPred)
    (minToSplit : Nat := 3) : List (List HPred) :=
  dispatchScan hydrusPredicates
    (scanForCandidate minToSplit (enumerated hydrusPredicates) none)

/-! ### Deep-check cadence (`scheduler_tasks.py`, `_should_perform_deep_run`) -/

/-- Model of `_should_perform_deep_run(db_conn, rule)` from `scheduler_tasks.py`.
`frequency = rule.get('force_in_check_frequency', 'first_run_only')`;
`interval = rule.get('force_in_check_interval_runs')` is `none` when the key
is missing or holds a non-integer; `runCount = rule.get('run_count', 0)`. -/
def shouldPerformDeepRun (frequency : String) (interval : Option Int)
    (runCount : Int) : Bool :=
  if frequency = "always" then true
  else if frequency = "never" then false
  else if frequency = "every_x_runs" then
    match interval with
    | none => false
    | some k => if k ≤ 0 then false else (runCount + 1) % k == 0
  else
    runCount == 0

/-! ### Cross-rule execution order (`app_config.py`, `views/rules.py`,
`views/sets.py`, `scheduler_tasks.py`) -/

/-- The slice of a merged rule dictionary consulted by the ordering code:
`priority` (`none` = key absent or not convertible by `int(...)`), the
action type, the creation timestamp (ISO 8601, compared lexicographically),
and the rule id. -/
structure Rule where
  id : String
  priority : Option Int
  actionType : String
  creationTimestamp : String
deriving Repr, DecidableEq

/-- Model of `importance_number` in `_get_rule_sort_key`: `int(rule.get('priority', 1))`
with fallback 1 on `ValueError`/`TypeError`. -/
def importanceNumber (r : Rule) : Int := r.priority.getD 1

/-- Model of `is_not_force_in_flag` in `_get_rule_sort_key`. -/
def isNotForceInFlag (r : Rule) : Nat := if r.actionType = "force_in" then 0 else 1

/-- Boolean comparison of the composite sort keys produced by
`_get_rule_sort_key`: lexicographic on (importance, is-not-force-in flag,
creation timestamp). -/
def compositeLe (r s : Rule) : Bool :=
  decide (importanceNumber r < importanceNumber s) ||
  (decide (importanceNumber r = importanceNumber s) &&
    (decide (isNotForceInFlag r < isNotForceInFlag s) ||
      (decide (isNotForceInFlag r = isNotForceInFlag s) &&
        decide (r.creationTimestamp ≤ s.creationTimestamp))))

/-- The comparison used by the `rules.sort(key=lambda r: r.get('priority', 0))`
re-sort in `run_all_rules_manual_route` and `run_set_route`. -/
def rawPriorityLe (r s : Rule) : Bool :=
  decide (r.priority.getD 0 ≤ s.priority.getD 0)

/-- The execution-sorted rule list produced by `load_rules` via
`_sort_rules_for_execution` (Python `sorted` is a stable mergesort). -/
def loadRulesOrder (rules : List Rule) : List Rule :=
  rules.mergeSort compositeLe

/-- The order in which `run_all_rules_manual_route` (`views/rules.py`)
executes rules: `load_rules` order re-sorted (stably) by raw priority. -/
def manualRunAllOrder (rules : List Rule) : List Rule :=
  (loadRulesOrder rules).mergeSort rawPriorityLe

/-- The order in which `run_rules_tick_job` (`scheduler_tasks.py`) executes
the due rules of one tick: `rules_to_run_this_tick = [rule for rule in
all_rules if rule['id'] in rules_to_run_ids]`. -/
def tickOrder (rules : List Rule) (due : String → Bool) : List Rule :=
  (loadRulesOrder rules).filter (fun r => due r.id)

/-- The order in which `run_set_route` (`views/sets.py`) executes a set's
rules: filter the `load_rules` order by set membership, then the same stable
raw-priority re-sort. -/
def setRunOrder (rules : List Rule) (inSet : String → Bool) : List Rule :=
  ((loadRulesOrder rules).filter (fun r => inSet r.id)).mergeSort rawPriorityLe

/-! ### The force_in action (`rule_processing/actions.py`, `force_in_services`)

The helper sets (`hashes_copied_to_all_dests`, `hashes_verified_in_all_dests`,
`hashes_deleted_successfully_from_extras`) are Python sets; we embed them as
duplicate-free lists in insertion order (Python's unspecified set-iteration
order is refined to insertion order; every property proved below is
order-insensitive). -/

/-- One entry of a file-metadata list: the file hash and the keys of its
current file services (`meta['file_services']['current'].keys()`). -/
structure Meta where
  hash : String
  fileServicesCurrent : List String
deriving Repr, DecidableEq

/-- An API call issued by `force_in_services`, tagged with the endpoint and
(for migrate/delete calls) the file service key of the payload. -/
structure FCall where
  endpoint : String
  serviceKey : String
  call : BCall String
deriving Repr, DecidableEq

/-- The external-API oracles consumed by `force_in_services`: results of the
copy (migrate) bulk/single calls per destination key, of the metadata-fetch
call per hash batch (with the metadata it returns on success), and of the
delete bulk/single calls per service key. -/
structure Oracle where
  copyBulk : String → List String → ApiResult
  copySingle : String → String → ApiResult
  fetchRes : List String → ApiResult
  fetchData : List String → List Meta
  delBulk : String → List String → ApiResult
  delSingle : String → String → ApiResult

/-- Python `set.add` under the insertion-order refinement. -/
def insertNew [DecidableEq α] (l : List α) (a : α) : List α :=
  if a ∈ l then l else l ++ [a]

/-- Python `set(xs)` under the insertion-order refinement: first occurrence
kept. -/
def dedupKeepFirst [DecidableEq α] (l : List α) : List α :=
  l.foldl insertNew []

/-- Model of `files_with_errors_map.setdefault(h, {"phase": ph, "errors": []})`: the
phase of a file is fixed by its first recorded error. -/
def setdefaultPhase (m : List (String × String)) (h ph : String) :
    List (String × String) :=
  if m.any (fun e => e.1 = h) then m else m ++ [(h, ph)]

/-- A `fetch_metadata` per-batch error: (message, hashes_in_batch,
status_code). -/
abbrev FetchErr := String × List String × Option Int

/-- The per-batch loop of `fetch_metadata` (`actions.py`). -/
def fetchMetadataLoop (o : Oracle) :
    List (List String) → List Meta → List FetchErr → List FCall →
    List Meta × List FetchErr × List FCall
  | [], meta, errs, calls => (meta, errs, calls)
  | c :: rest, meta, errs, calls =>
    let r := o.fetchRes c
    if r.success then
      fetchMetadataLoop o rest (meta ++ o.fetchData c) errs
        (calls ++ [⟨"/get_files/file_metadata", "", BCall.bulk c⟩])
    else
      fetchMetadataLoop o rest meta
        (errs ++ [("Metadata fetch failed for a batch: " ++ r.message, c, r.status)])
        (calls ++ [⟨"/get_files/file_metadata", "", BCall.bulk c⟩])

/-- Model of `fetch_metadata(ctx, hashes_list, batch_size=256)` from `actions.py`. -/
def fetchMetadata (o : Oracle) (apiAddressConfigured : Bool) (hashesList : List String)
    (batchSize : Nat := 256) : List Meta × List FetchErr × List FCall :=
  if hashesList.isEmpty then ([], [], [])
  else if ¬ apiAddressConfigured then
    ([], [("API address not configured.", hashesList, none)], [])
  else fetchMetadataLoop o (chunks batchSize hashesList) [] [] []

/-- Phase 1 of `force_in_services`: per destination key, one batched copy
call over the current survivors; failed files are discarded and recorded
under phase `copy`. -/
def copyPhase (o : Oracle) (api : Bool) (bs : Nat) :
    List String → List String → List (String × String) → List FCall →
    List String × List (String × String) × List FCall
  | [], surv, em, calls => (surv, em, calls)
  | d :: rest, surv, em, calls =>
    if surv.isEmpty then (surv, em, calls)
    else
      let r := batchApiCallWithRetry api surv bs (o.copyBulk d) (o.copySingle d)
      let surv1 := surv.filter (fun h => ¬ r.failedItemsWithErrors.any (fun e => e.1 = h))
      let em1 := r.failedItemsWithErrors.foldl (fun m e => setdefaultPhase m e.1 "copy") em
      copyPhase o api bs rest surv1 em1
        (calls ++ r.calls.map (fun c => ⟨"/add_files/migrate_files", d, c⟩))

/-- Inner loop discarding the hashes of one failed metadata batch. -/
def verifyDiscardHashes :
    List String → List String → List (String × String) →
    List String × List (String × String)
  | [], surv, em => (surv, em)
  | h :: t, surv, em =>
    if h ∈ surv then
      verifyDiscardHashes t (surv.filter (fun x => x ≠ h)) (setdefaultPhase em h "verify")
    else verifyDiscardHashes t surv em

/-- Phase 2, first half: drop every file of a failed metadata batch,
recording it under phase `verify`. -/
def verifyDiscard :
    List FetchErr → List String → List (String × String) →
    List String × List (String × String)
  | [], surv, em => (surv, em)
  | e :: rest, surv, em =>
    let p := verifyDiscardHashes e.2.1 surv em
    verifyDiscard rest p.1 p.2

/-- Phase 2, second half: scan the fresh metadata; a surviving file is
verified iff the destination set is a subset of its current services,
otherwise it is recorded under phase `verify`. -/
def verifyScan (destKeys : List String) :
    List Meta → List String → List String → List (String × String) →
    List String × List (String × String)
  | [], _, ver, em => (ver, em)
  | m :: rest, surv, ver, em =>
    if m.hash = "" ∨ m.hash ∉ surv then verifyScan destKeys rest surv ver em
    else if destKeys.all (fun d => d ∈ m.fileServicesCurrent) then
      verifyScan destKeys rest surv (insertNew ver m.hash) em
    else
      verifyScan destKeys rest surv ver (setdefaultPhase em m.hash "verify")

/-- Model of `meta_map_verified.get(h)`: the last metadata entry for a verified hash
wins (Python dict-comprehension overwrite). -/
def metaMapLookup (metas : List Meta) (ver : List String) (h : String) : Option Meta :=
  ((metas.filter (fun m => m.hash ∈ ver)).reverse).find? (fun m => m.hash = h)

/-- Python `d.setdefault(k, []).append(h)` on `deletions_by_service`. -/
def appendAssoc (m : List (String × List String)) (k h : String) :
    List (String × List String) :=
  if m.any (fun e => e.1 = k) then
    m.map (fun e => if e.1 = k then (e.1, e.2 ++ [h]) else e)
  else m ++ [(k, [h])]

/-- Phase 3 preparation: for each verified file, compute the other local
services it must be deleted from; a verified file with no fresh metadata is
dropped and recorded under phase `delete_prep`. -/
def deletePrep (localKeys destKeys : List String) (metas : List Meta)
    (snapshot : List String) :
    List String → List String → List (String × List String) → List (String × String) →
    List String × List (String × List String) × List (String × String)
  | [], ver, dels, em => (ver, dels, em)
  | h :: t, ver, dels, em =>
    match metaMapLookup metas snapshot h with
    | none =>
      deletePrep localKeys destKeys metas snapshot t
        (ver.filter (fun x => x ≠ h)) dels (setdefaultPhase em h "delete_prep")
    | some m =>
      let toDeleteFrom :=
        ((dedupKeepFirst m.fileServicesCurrent).filter (fun sk => sk ∈ localKeys)).filter
          (fun sk => sk ∉ destKeys)
      deletePrep localKeys destKeys metas snapshot t ver
        (toDeleteFrom.foldl (fun ds sk => appendAssoc ds sk h) dels) em

/-- Phase 3: per service, one batched delete call over the files still fully
successful; failed files are discarded and recorded under phase `delete`. -/
def deleteLoop (o : Oracle) (api : Bool) (bs : Nat) :
    List (String × List String) → List String → List (String × String) → List FCall →
    List String × List (String × String) × List FCall
  | [], ok, em, calls => (ok, em, calls)
  | (sk, hs) :: rest, ok, em, calls =>
    if hs.isEmpty ∨ ok.isEmpty then (ok, em, calls)
    else
      let r := batchApiCallWithRetry api (hs.filter (fun h => h ∈ ok)) bs
        (o.delBulk sk) (o.delSingle sk)
      let ok1 := ok.filter (fun h => ¬ r.failedItemsWithErrors.any (fun e => e.1 = h))
      let em1 := r.failedItemsWithErrors.foldl (fun m e => setdefaultPhase m e.1 "delete") em
      deleteLoop o api bs rest ok1 em1
        (calls ++ r.calls.map (fun c => ⟨"/add_files/delete_files", sk, c⟩))

/-- The final accumulation of `files_fully_successful`: a verified file is
fully successful iff it needed no deletions or survived all of them. -/
def fullyLoop (dels : List (String × List String)) (ok : List String) :
    List String → List String
  | [] => []
  | h :: t =>
    if ¬ dels.any (fun e => h ∈ e.2) then h :: fullyLoop dels ok t
    else if h ∈ ok then h :: fullyLoop dels ok t
    else fullyLoop dels ok t

/-- The result dictionary of `force_in_services`, extended with the final
values of the internal phase sets (`copySurvivors` =
`hashes_copied_to_all_dests` after phase 1, `verified` =
`hashes_verified_in_all_dests` after phase 2, `deletions` =
`deletions_by_service`) and the trace of issued API calls, which the claims
quantify over. -/
structure ForceInResult where
  success : Bool
  filesFullySuccessful : List String
  filesWithErrors : List (String × String)
  initialCandidates : Nat
  copiedPhaseSuccessCount : Nat
  verifiedPhaseSuccessCount : Nat
  deletedPhaseSuccessCount : Nat
  overallErrors : List String
  copySurvivors : List String
  verified : List String
  deletions : List (String × List String)
  calls : List FCall
deriving Repr, DecidableEq

/-- Phase 3 of `force_in_services` (delete preparation, delete calls, final
accumulation), entered with the post-verify state. -/
def forceInStage3 (o : Oracle) (api : Bool) (bs initialCandidates : Nat)
    (dks localKeys surv : List String) (freshMeta : List Meta)
    (ver : List String) (em3 : List (String × String)) (calls2 : List FCall) :
    ForceInResult :=
  if ver.isEmpty then
    { success := false, filesFullySuccessful := [], filesWithErrors := em3
    , initialCandidates := initialCandidates
    , copiedPhaseSuccessCount := surv.length
    , verifiedPhaseSuccessCount := 0, deletedPhaseSuccessCount := 0
    , overallErrors := ["No files verified."]
    , copySurvivors := surv, verified := ver, deletions := [], calls := calls2 }
  else
    let dp := deletePrep localKeys dks freshMeta ver ver ver [] em3
    let ver2 := dp.1
    let dels := dp.2.1
    let em4 := dp.2.2
    let dl := deleteLoop o api bs dels ver2 em4 calls2
    let ok := dl.1
    let em5 := dl.2.1
    let calls3 := dl.2.2
    let fully := fullyLoop dels ok ver2
    { success := em5.isEmpty && (fully.length == initialCandidates)
    , filesFullySuccessful := fully, filesWithErrors := em5
    , initialCandidates := initialCandidates
    , copiedPhaseSuccessCount := surv.length
    , verifiedPhaseSuccessCount := ver.length
    , deletedPhaseSuccessCount := fully.length
    , overallErrors := []
    , copySurvivors := surv, verified := ver, deletions := dels, calls := calls3 }

/-- Phase 2 of `force_in_services` (metadata re-fetch and verification),
entered with the post-copy survivors. -/
def forceInStage2 (o : Oracle) (api : Bool) (bs initialCandidates : Nat)
    (dks localKeys surv : List String) (em1 : List (String × String))
    (calls1 : List FCall) : ForceInResult :=
  if surv.isEmpty then
    { success := false, filesFullySuccessful := [], filesWithErrors := em1
    , initialCandidates := initialCandidates, copiedPhaseSuccessCount := 0
    , verifiedPhaseSuccessCount := 0, deletedPhaseSuccessCount := 0
    , overallErrors := ["No files copied."]
    , copySurvivors := surv, verified := [], deletions := [], calls := calls1 }
  else
    let fmr := fetchMetadata o api surv 256
    let freshMeta := fmr.1
    let metaErrs := fmr.2.1
    let calls2 := calls1 ++ fmr.2.2
    let vd := verifyDiscard metaErrs surv em1
    let surv2 := vd.1
    let em2 := vd.2
    let vs := verifyScan dks freshMeta surv2 [] em2
    let ver := vs.1
    let em3 := vs.2
    forceInStage3 o api bs initialCandidates dks localKeys surv freshMeta ver em3 calls2

/-- Model of `force_in_services(ctx, files_metadata_list,
rule_configured_destination_keys, batch_size=64)` from `actions.py`.
`availableServices` is `ctx.available_services` as (service_key, type)
pairs; local services are those of type 2. -/
def forceInServices (o : Oracle) (api : Bool) (availableServices : List (String × Int))
    (filesMetadataList : List Meta) (ruleConfiguredDestinationKeys : List String)
    (batchSize : Nat := 64) : ForceInResult :=
  let initialCandidates := filesMetadataList.length
  if filesMetadataList.isEmpty then
    { success := true, filesFullySuccessful := [], filesWithErrors := []
    , initialCandidates := 0, copiedPhaseSuccessCount := 0
    , verifiedPhaseSuccessCount := 0, deletedPhaseSuccessCount := 0
    , overallErrors := [], copySurvivors := [], verified := [], deletions := []
    , calls := [] }
  else if ruleConfiguredDestinationKeys.isEmpty ∨
      ruleConfiguredDestinationKeys.any (fun k => k.data.all Char.isWhitespace) then
    { success := false, filesFullySuccessful := [], filesWithErrors := []
    , initialCandidates := initialCandidates, copiedPhaseSuccessCount := 0
    , verifiedPhaseSuccessCount := 0, deletedPhaseSuccessCount := 0
    , overallErrors :=
        ["'force_in' action was called with invalid or empty destination keys. " ++
         "This is a critical safety violation. Aborting 'force_in' operation."]
    , copySurvivors := [], verified := [], deletions := [], calls := [] }
  else
    let allLocalServiceKeys :=
      dedupKeepFirst ((availableServices.filter (fun s => s.2 = 2)).map (fun s => s.1))
    let candidateHashes :=
      (filesMetadataList.filter (fun m => m.hash ≠ "")).map (fun m => m.hash)
    let pc := copyPhase o api batchSize ruleConfiguredDestinationKeys
      (dedupKeepFirst candidateHashes) [] []
    forceInStage2 o api batchSize initialCandidates ruleConfiguredDestinationKeys
      allLocalServiceKeys pc.1 pc.2.1 pc.2.2

/-! ## Theorems -/

/-- Claim C8: with cadence `every_x_runs(k)` the scheduler decides a deep
run exactly when `(run_count + 1) mod k == 0` (for `k = 3`: exactly at
run counts 2, 5, 8, …), any invalid `k` (missing/non-integer or `≤ 0`)
disables deep-check, cadence `always` always selects a deep run, `never`
never does, and `first_run_only` selects it exactly when `run_count` is 0. -/
theorem shouldPerformDeepRun_cadence_spec :
    (∀ i r, shouldPerformDeepRun "always" i r = true) ∧
    (∀ i r, shouldPerformDeepRun "never" i r = false) ∧
    (∀ i r, shouldPerformDeepRun "first_run_only" i r = true ↔ r = 0) ∧
    (∀ r, shouldPerformDeepRun "every_x_runs" none r = false) ∧
    (∀ k r, k ≤ 0 → shouldPerformDeepRun "every_x_runs" (some k) r = false) ∧
    (∀ k r, 0 < k →
      (shouldPerformDeepRun "every_x_runs" (some k) r = true ↔ (r + 1) % k = 0)) ∧
    (∀ r, shouldPerformDeepRun "every_x_runs" (some 3) r = true ↔ r % 3 = 2) := by
  refine ⟨?_, ?_, ?_, ?_, ?_, ?_, ?_⟩
  · intro i r; rfl
  · intro i r; rfl
  · intro i r
    simp [shouldPerformDeepRun]
  · intro r; rfl
  · intro k r hk
    simp [shouldPerformDeepRun, hk]
  · intro k r hk
    have hk' : ¬ k ≤ 0 := by omega
    simp [shouldPerformDeepRun, hk']
  · intro r
    have : ¬ (3 : Int) ≤ 0 := by omega
    simp [shouldPerformDeepRun, this]
    omega

/-- Witness for `shouldPerformDeepRun_cadence_spec` at concrete inputs. -/
theorem shouldPerformDeepRun_cadence_spec_witness :
    shouldPerformDeepRun "every_x_runs" (some (-2)) 7 = false ∧
    (shouldPerformDeepRun "every_x_runs" (some 3) 5 = true ↔ (5 + 1) % (3 : Int) = 0) := by
  exact ⟨shouldPerformDeepRun_cadence_spec.2.2.2.2.1 (-2) 7 (by decide),
         shouldPerformDeepRun_cadence_spec.2.2.2.2.2.1 3 5 (by decide)⟩

/-- Counterexample to claim C10 as stated: a governed, non-bypassed `add_to`
rule against an existing row whose `force_in_priority_governance` column is
absent.  `sqlite3.Row` raises an `IndexError` on the access, which the
`except (KeyError, json.JSONDecodeError)` handler does not catch, so
`check_override` raises (modelled as `none`) instead of returning `run`. -/
theorem checkOverride_corrupted_counterexample :
    checkOverride ⟨"r9", [], "add_to", 1, none, []⟩
      (some ⟨some (some []), none, some (some []), some (some []), some (some [])⟩) =
        none ∧
    (checkOverride ⟨"r9", [], "add_to", 1, none, []⟩
      (some ⟨some (some []), none, some (some []), some (some []),
        some (some [])⟩)).map Prod.fst ≠ some "run" := by
  exact ⟨rfl, by decide⟩

/-- Claim C10 (amended): for a file whose row exists with its priority
columns present but whose `rating_priority_governance` text is invalid
JSON, `check_override` fails open and returns `run`; if instead the
`force_in_priority_governance` or `rating_priority_governance` column is
absent from the row, the `sqlite3.Row` access raises an `IndexError` that
the `except (KeyError, json.JSONDecodeError)` handler does not catch, so
for a governed, non-bypassed rule `check_override` raises rather than
returning. -/
theorem checkOverride_corrupted_failOpen (ctx : Ctx) (fr : DbRow) :
    (∀ p, fr.forceInPriorityGovernance = some p →
      fr.ratingPriorityGovernance = some none →
      ∃ reason, checkOverride ctx (some fr) = some ("run", reason)) ∧
    (ctx.ruleId ∉ ctx.overrideBypassList →
      ctx.actionType ∈ governedActionTypes →
      (fr.forceInPriorityGovernance = none ∨ fr.ratingPriorityGovernance = none) →
      checkOverride ctx (some fr) = none) := by
  constructor
  · intro p hf hr
    unfold checkOverride
    by_cases hb : ctx.ruleId ∈ ctx.overrideBypassList
    · rw [if_pos hb]
      exact ⟨_, rfl⟩
    · rw [if_neg hb]
      by_cases hg : ctx.actionType ∉ governedActionTypes
      · rw [if_pos hg]
        exact ⟨_, rfl⟩
      · rw [if_neg hg]
        simp only [hf, hr]
        exact ⟨_, rfl⟩
  · intro hb hg h
    obtain ⟨a, b, c, d, e⟩ := fr
    unfold checkOverride
    rw [if_neg hb, if_neg (not_not_intro hg)]
    rcases h with h | h
    · cases b with
      | none => rfl
      | some p => simp at h
    · cases e with
      | none =>
        cases b with
        | none => rfl
        | some p => rfl
      | some e2 => simp at h

/-- Witness for `checkOverride_corrupted_failOpen`: a present but
unparseable rating-governance column fails open; an absent
`force_in_priority_governance` column raises. -/
theorem checkOverride_corrupted_failOpen_witness :
    (∃ reason, checkOverride ⟨"r9", [], "add_to", 1, none, []⟩
      (some ⟨some (some []), some 2, some (some []), some (some []), some none⟩) =
        some ("run", reason)) ∧
    checkOverride ⟨"r8", [], "force_in", 1, none, []⟩
      (some ⟨some (some []), none, some (some []), some (some []),
        some (some [])⟩) = none := by
  constructor
  · exact (checkOverride_corrupted_failOpen ⟨"r9", [], "add_to", 1, none, []⟩
      ⟨some (some []), some 2, some (some []), some (some []), some none⟩).1 2 rfl rfl
  · exact (checkOverride_corrupted_failOpen ⟨"r8", [], "force_in", 1, none, []⟩
      ⟨some (some []), none, some (some []), some (some []), some (some [])⟩).2
      (by decide) (by decide) (Or.inl rfl)

/-- Claim C1: for a file with a (parseable) governance record carrying
`force_in_priority = p` and a rule not in the bypass list, `check_override`
returns `run` for an `add_to` action iff `importance ≥ p`, and for a
`force_in` action iff `importance > p` (strict); in all other cases it
returns `skipped` with a reason. -/
theorem checkOverride_placement_asymmetry (ctx : Ctx) (fr : DbRow) (p : Int)
    (rp : List (String × Int))
    (hb : ctx.ruleId ∉ ctx.overrideBypassList)
    (hf : fr.forceInPriorityGovernance = some p)
    (hr : fr.ratingPriorityGovernance = some (some rp)) :
    (ctx.actionType = "add_to" →
      ((checkOverride ctx (some fr) = some ("run", none)) ↔ p ≤ ctx.ruleImportance) ∧
      (¬ p ≤ ctx.ruleImportance →
        ∃ reason, checkOverride ctx (some fr) = some ("skipped", some reason))) ∧
    (ctx.actionType = "force_in" →
      ((checkOverride ctx (some fr) = some ("run", none)) ↔ p < ctx.ruleImportance) ∧
      (¬ p < ctx.ruleImportance →
        ∃ reason, checkOverride ctx (some fr) = some ("skipped", some reason))) := by
  constructor
  · intro ha
    have hg : ¬ ctx.actionType ∉ governedActionTypes := by
      simp [governedActionTypes, ha]
    have hm : ¬ ctx.actionType = "modify_rating" := by simp [ha]
    rw [checkOverride]
    simp only [if_neg hb, if_neg hg, hf, hr, if_neg hm, if_pos ha]
    constructor
    · by_cases hle : p ≤ ctx.ruleImportance
      · simp [hle]
      · simp [hle]
    · intro hle
      rw [if_neg hle]
      exact ⟨_, rfl⟩
  · intro ha
    have hg : ¬ ctx.actionType ∉ governedActionTypes := by
      simp [governedActionTypes, ha]
    have hm : ¬ ctx.actionType = "modify_rating" := by simp [ha]
    have hat : ¬ ctx.actionType = "add_to" := by simp [ha]
    rw [checkOverride]
    simp only [if_neg hb, if_neg hg, hf, hr, if_neg hm, if_neg hat]
    constructor
    · by_cases hlt : p < ctx.ruleImportance
      · simp [hlt]
      · simp [hlt]
    · intro hlt
      rw [if_neg hlt]
      exact ⟨_, rfl⟩

/-- Witness for `checkOverride_placement_asymmetry`: an `add_to` rule of
importance 2 against force-in priority 2 runs; a `force_in` rule of
importance 2 against force-in priority 2 is skipped. -/
theorem checkOverride_placement_asymmetry_witness :
    checkOverride ⟨"rA", [], "add_to", 2, none, []⟩
        (some ⟨some (some []), some 2, some (some []), some (some []),
          some (some [])⟩) = some ("run", none) ∧
    ∃ reason, checkOverride ⟨"rB", [], "force_in", 2, none, []⟩
        (some ⟨some (some []), some 2, some (some []), some (some []),
          some (some [])⟩) = some ("skipped", some reason) := by
  constructor
  · exact ((checkOverride_placement_asymmetry ⟨"rA", [], "add_to", 2, none, []⟩
      ⟨some (some []), some 2, some (some []), some (some []), some (some [])⟩
      2 [] (by simp) rfl rfl).1 rfl).1.mpr (by decide)
  · exact ((checkOverride_placement_asymmetry ⟨"rB", [], "force_in", 2, none, []⟩
      ⟨some (some []), some 2, some (some []), some (some []), some (some [])⟩
      2 [] (by simp) rfl rfl).2 rfl).2 (by decide)

/-- Membership in the `add_to` placement accumulation: exactly the previous
entries plus the non-blank destination keys. -/
theorem mem_addToPlacement : ∀ (dks pl : List String) (k : String),
    k ∈ addToPlacement pl dks ↔ k ∈ pl ∨ (k ∈ dks ∧ k ≠ "")
  | [], pl, k => by simp [addToPlacement]
  | d :: rest, pl, k => by
    rw [addToPlacement]
    by_cases hd : d ≠ "" ∧ d ∉ pl
    · rw [if_pos hd, mem_addToPlacement rest]
      by_cases hk : k = d
      · subst hk
        simp [hd.1]
      · simp only [List.mem_append, List.mem_singleton, List.mem_cons, hk,
          false_or, or_false]
        tauto
    · rw [if_neg hd, mem_addToPlacement rest]
      push_neg at hd
      by_cases hk : k = d
      · subst hk
        constructor
        · rintro (h | h)
          · exact Or.inl h
          · exact Or.inr ⟨List.mem_cons_self _ _, h.2⟩
        · rintro (h | ⟨h, hne⟩)
          · exact Or.inl h
          · exact Or.inl (hd hne)
      · simp only [List.mem_cons, hk, false_or]

/-- Reduction of `updateStateAfterSuccess` on a governed action and a
parseable row. -/
theorem updateStateAfterSuccess_eq (ctx : Ctx) (row : DbRow) (st : FileState)
    (hp : parseFull row = some st) (hg : ctx.actionType ∈ governedActionTypes) :
    updateStateAfterSuccess ctx (some row) =
      some (some (writeRow (applyActionToState ctx
        (if ctx.ruleId ∈ st.rulesInApplication then st
         else { st with rulesInApplication := st.rulesInApplication ++ [ctx.ruleId] })))) := by
  have hrow : parseFullRow row = ParseOutcome.ok st := by
    unfold parseFull at hp
    cases h : parseFullRow row with
    | crash => rw [h] at hp; simp at hp
    | corrupt => rw [h] at hp; simp at hp
    | ok st2 =>
      rw [h] at hp
      simp only [Option.some.injEq] at hp
      rw [← hp]
  unfold updateStateAfterSuccess
  rw [if_neg (not_not_intro hg)]
  simp only [hrow]
  rfl

/-- Claim C2: after a successful `force_in`, placement is exactly the rule's
non-blank destination keys (previous placement discarded) and
`force_in_priority` becomes the rule's importance; after a successful
`add_to`, placement is the previous placement unioned with the rule's
(non-blank) destination keys and `force_in_priority` is unchanged — stated
both in general and, for destination keys with no blank entry, as the plain
union the claim describes. -/
theorem updateState_placement_spec (ctx : Ctx) (row : DbRow) (st : FileState)
    (hp : parseFull row = some st) :
    (ctx.actionType = "force_in" →
      ∃ st2, updateStateAfterSuccess ctx (some row) = some (some (writeRow st2)) ∧
        st2.correctPlacement = ctx.destinationServiceKeys.filter (fun k => k ≠ "") ∧
        st2.forceInPriorityGovernance = ctx.ruleImportance) ∧
    (ctx.actionType = "add_to" →
      ∃ st2, updateStateAfterSuccess ctx (some row) = some (some (writeRow st2)) ∧
        (∀ k, k ∈ st2.correctPlacement ↔
          k ∈ st.correctPlacement ∨ (k ∈ ctx.destinationServiceKeys ∧ k ≠ "")) ∧
        ((∀ k ∈ ctx.destinationServiceKeys, k ≠ "") →
          ∀ k, k ∈ st2.correctPlacement ↔
            k ∈ st.correctPlacement ∨ k ∈ ctx.destinationServiceKeys) ∧
        st2.forceInPriorityGovernance = st.forceInPriorityGovernance) := by
  constructor
  · intro ha
    have hg : ctx.actionType ∈ governedActionTypes := by
      simp [governedActionTypes, ha]
    refine ⟨_, updateStateAfterSuccess_eq ctx row st hp hg, ?_, ?_⟩ <;>
      by_cases hrid : ctx.ruleId ∈ st.rulesInApplication <;>
        simp [applyActionToState, ha, hrid]
  · intro ha
    have hg : ctx.actionType ∈ governedActionTypes := by
      simp [governedActionTypes, ha]
    have hcp : (if ctx.ruleId ∈ st.rulesInApplication then st
        else { st with rulesInApplication :=
          st.rulesInApplication ++ [ctx.ruleId] }).correctPlacement =
          st.correctPlacement := by
      split <;> rfl
    refine ⟨_, updateStateAfterSuccess_eq ctx row st hp hg, ?_, ?_, ?_⟩
    · intro k
      rw [show ∀ s : FileState, (applyActionToState ctx s).correctPlacement =
          addToPlacement s.correctPlacement ctx.destinationServiceKeys from
          fun s => by simp [applyActionToState, ha]]
      rw [mem_addToPlacement, hcp]
    · intro hne k
      rw [show ∀ s : FileState, (applyActionToState ctx s).correctPlacement =
          addToPlacement s.correctPlacement ctx.destinationServiceKeys from
          fun s => by simp [applyActionToState, ha]]
      rw [mem_addToPlacement, hcp]
      constructor
      · rintro (h | h)
        · exact Or.inl h
        · exact Or.inr h.1
      · rintro (h | h)
        · exact Or.inl h
        · exact Or.inr ⟨h, hne k h⟩
    · rw [show ∀ s : FileState, (applyActionToState ctx s).forceInPriorityGovernance =
          s.forceInPriorityGovernance from fun s => by simp [applyActionToState, ha]]
      split <;> rfl

/-- Witness for `updateState_placement_spec`: a force_in of importance 4
with destinations [d2] replaces placement [d1] wholesale. -/
theorem updateState_placement_spec_witness :
    ∃ st2, updateStateAfterSuccess ⟨"r1", [], "force_in", 4, none, ["d2"]⟩
        (some ⟨some (some []), some 1, some (some ["d1"]), some (some []),
          some (some [])⟩) = some (some (writeRow st2)) ∧
      st2.correctPlacement = ["d2"].filter (fun k => k ≠ "") ∧
      st2.forceInPriorityGovernance = 4 := by
  exact (updateState_placement_spec ⟨"r1", [], "force_in", 4, none, ["d2"]⟩
    ⟨some (some []), some 1, some (some ["d1"]), some (some []), some (some [])⟩
    ⟨[], 1, ["d1"], [], []⟩ rfl).1 rfl

/-- Writing a key with `setAssoc` makes it the value `assocGet` reads
back. -/
theorem assocGet_setAssoc_self : ∀ (m : List (String × Int)) (k : String) (v : Int),
    assocGet (setAssoc m k v) k = some v := by
  intro m k v
  unfold setAssoc
  by_cases h : m.any (fun e => e.1 = k)
  · rw [if_pos h]
    induction m with
    | nil => simp at h
    | cons e t ih =>
      rw [List.map_cons]
      by_cases he : e.1 = k
      · rw [if_pos he]
        simp [assocGet]
      · rw [if_neg he]
        have ht : t.any (fun x => decide (x.1 = k)) = true := by
          rcases List.any_eq_true.mp h with ⟨x, hx, hpx⟩
          rcases List.mem_cons.mp hx with rfl | hx
          · exact absurd (of_decide_eq_true hpx) he
          · exact List.any_eq_true.mpr ⟨x, hx, hpx⟩
        have hrec := ih ht
        unfold assocGet at hrec ⊢
        rw [List.find?_cons_of_neg _ (by simpa using he)]
        exact hrec
  · rw [if_neg h]
    unfold assocGet
    rw [List.find?_append]
    have hnone : m.find? (fun e => decide (e.1 = k)) = none := by
      rw [List.find?_eq_none]
      intro x hx
      simp only [List.any_eq_true, not_exists, not_and] at h
      simpa using h x hx
    rw [hnone]
    simp

/-- Under a `modify_rating` action with a present, non-blank service key,
the state mutation writes the rule's importance for that service. -/
theorem applyAction_modifyRating_rpg (ctx : Ctx) (st : FileState) (s : String)
    (hact : ctx.actionType = "modify_rating")
    (hkey : ctx.ratingServiceKey = some s) (hs : s ≠ "") :
    (applyActionToState ctx st).ratingPriorityGovernance =
      setAssoc st.ratingPriorityGovernance s ctx.ruleImportance := by
  unfold applyActionToState
  rw [if_pos hact, hkey]
  simp only [if_neg hs]
  split <;> rfl

/-- Counterexample to claim C3 as stated: a bypassed `modify_rating` rule of
importance 0 is admitted by `check_override` even though the stored rating
priority for the service is 5, and the subsequent
`update_state_after_success` records 0 — a strict decrease. -/
theorem ratingPrio_monotone_counterexample :
    (checkOverride ⟨"r1", ["r1"], "modify_rating", 0, some "svc", []⟩
      (some ⟨some (some []), some (-1), some (some []), some (some []),
        some (some [("svc", 5)])⟩)).map Prod.fst = some "run" ∧
    storedRatingPrio
      (some ⟨some (some []), some (-1), some (some []), some (some []),
        some (some [("svc", 5)])⟩) "svc" = 5 ∧
    (updateStateAfterSuccess ⟨"r1", ["r1"], "modify_rating", 0, some "svc", []⟩
      (some ⟨some (some []), some (-1), some (some []), some (some []),
        some (some [("svc", 5)])⟩)).map
          (fun row2 => storedRatingPrio row2 "svc") = some 0 ∧
    ¬ ((5 : Int) ≤ 0) := by
  refine ⟨rfl, rfl, rfl, by decide⟩

/-- After a governed update under a `modify_rating` action with a present,
non-blank service key, the stored rating priority for that service is
exactly the rule's importance. -/
theorem storedRatingPrio_governedUpdate (ctx : Ctx) (st : FileState) (s : String)
    (hact : ctx.actionType = "modify_rating")
    (hkey : ctx.ratingServiceKey = some s) (hs : s ≠ "") :
    storedRatingPrio (some (governedUpdate ctx st)) s = ctx.ruleImportance := by
  unfold governedUpdate
  simp only [storedRatingPrio, writeRow]
  rw [applyAction_modifyRating_rpg ctx _ s hact hkey hs, assocGet_setAssoc_self]
  rfl

/-- Claim C3 (amended): excluding rules in the override bypass list, and for
rules of non-negative importance (the data model's constraint) acting on a
file whose governance row is absent or fully parseable, the stored
`rating_priority[svc]` (default -1) never decreases across a
`check_override`-admitted `modify_rating` success followed by
`update_state_after_success` (which then returns normally). -/
theorem ratingPrio_monotone_amended (ctx : Ctx) (row : Option DbRow) (s : String)
    (hact : ctx.actionType = "modify_rating")
    (hkey : ctx.ratingServiceKey = some s) (hs : s ≠ "")
    (hb : ctx.ruleId ∉ ctx.overrideBypassList)
    (himp : 0 ≤ ctx.ruleImportance)
    (hparse : ∀ r, row = some r → (parseFull r).isSome)
    (hrun : ∃ res, checkOverride ctx row = some res ∧ res.1 = "run") :
    ∃ row2, updateStateAfterSuccess ctx row = some row2 ∧
      storedRatingPrio row s ≤ storedRatingPrio row2 s := by
  have hg : ctx.actionType ∈ governedActionTypes := by
    simp [governedActionTypes, hact]
  obtain ⟨res, hres, hrun1⟩ := hrun
  match row, hparse, hres with
  | none, _, _ =>
    refine ⟨some (governedUpdate ctx getDefaultFileState), ?_, ?_⟩
    · unfold updateStateAfterSuccess
      rw [if_neg (not_not_intro hg)]
    · rw [storedRatingPrio_governedUpdate ctx _ s hact hkey hs]
      show (-1 : Int) ≤ ctx.ruleImportance
      omega
  | some ⟨f1, f2, f3, f4, f5⟩, hparse, hres =>
    have hsome := hparse _ rfl
    match f1, f2, f3, f4, f5, hsome, hres with
    | some (some a), some p, some (some c), some (some d), some (some m), _, hres =>
      refine ⟨some (governedUpdate ctx ⟨a, p, c, d, m⟩), ?_, ?_⟩
      · unfold updateStateAfterSuccess
        rw [if_neg (not_not_intro hg)]
        rfl
      · rw [storedRatingPrio_governedUpdate ctx _ s hact hkey hs]
        show ((assocGet m s).getD (-1)) ≤ ctx.ruleImportance
        unfold checkOverride at hres
        rw [if_neg hb, if_neg (not_not_intro hg)] at hres
        simp only [if_pos hact, hkey] at hres
        rw [if_neg hs] at hres
        by_cases hlt : (assocGet m s).getD (-1) < ctx.ruleImportance
        · omega
        · rw [if_neg hlt] at hres
          injection hres with h2
          rw [← h2] at hrun1
          simp at hrun1

/-- Witness for `ratingPrio_monotone_amended`: importance 7 over stored
priority 3. -/
theorem ratingPrio_monotone_amended_witness :
    ∃ row2, updateStateAfterSuccess ⟨"r2", [], "modify_rating", 7, some "s", []⟩
        (some ⟨some (some []), some (-1), some (some []), some (some []),
          some (some [("s", 3)])⟩) = some row2 ∧
      storedRatingPrio (some ⟨some (some []), some (-1), some (some []),
        some (some []), some (some [("s", 3)])⟩) "s" ≤ storedRatingPrio row2 "s" := by
  exact ratingPrio_monotone_amended ⟨"r2", [], "modify_rating", 7, some "s", []⟩
    (some ⟨some (some []), some (-1), some (some []), some (some []),
      some (some [("s", 3)])⟩) "s"
    rfl rfl (by decide) (by simp) (by decide)
    (fun r hr => by cases hr; rfl) ⟨("run", none), rfl, rfl⟩

/-- An all-success external-API oracle, used for concrete evaluations. -/
def trivialOracle : Oracle :=
  { copyBulk := fun _ _ => ⟨true, "", none⟩
  , copySingle := fun _ _ => ⟨true, "", none⟩
  , fetchRes := fun _ => ⟨true, "", none⟩
  , fetchData := fun c => c.map (fun h => ⟨h, []⟩)
  , delBulk := fun _ _ => ⟨true, "", none⟩
  , delSingle := fun _ _ => ⟨true, "", none⟩ }

/-- Counterexample to claim C9 as stated: invoked with an empty (invalid)
destination-key list but an empty candidate list, `force_in_services`
returns success = true with no critical error — the empty-candidates early
return precedes the destination validation. -/
theorem forceIn_invalidDest_counterexample :
    (forceInServices trivialOracle true [] [] [] 64).success = true ∧
    (forceInServices trivialOracle true [] [] [] 64).overallErrors = [] := by
  exact ⟨rfl, rfl⟩

/-- Claim C9 (amended): whenever `force_in_services` is invoked with a
non-empty candidate list and a destination-key list that is empty or
contains a blank entry, it returns success = false with a critical error
message, zero copied/verified/deleted counts, and performs no API call at
all. -/
theorem forceIn_invalidDest_abort (o : Oracle) (api : Bool)
    (avail : List (String × Int)) (fm : List Meta) (dks : List String) (bs : Nat)
    (hne : fm ≠ [])
    (hbad : dks = [] ∨ ∃ k ∈ dks, k.data.all Char.isWhitespace = true) :
    (forceInServices o api avail fm dks bs).success = false ∧
    (forceInServices o api avail fm dks bs).copiedPhaseSuccessCount = 0 ∧
    (forceInServices o api avail fm dks bs).verifiedPhaseSuccessCount = 0 ∧
    (forceInServices o api avail fm dks bs).deletedPhaseSuccessCount = 0 ∧
    (forceInServices o api avail fm dks bs).calls = [] ∧
    (forceInServices o api avail fm dks bs).filesFullySuccessful = [] ∧
    (forceInServices o api avail fm dks bs).overallErrors ≠ [] := by
  have h1 : ¬ fm.isEmpty = true := by
    simpa [List.isEmpty_iff] using hne
  have h2 : (dks.isEmpty ∨ dks.any (fun k => k.data.all Char.isWhitespace) = true) := by
    rcases hbad with h | ⟨k, hk, hkt⟩
    · subst h; exact Or.inl rfl
    · exact Or.inr (List.any_eq_true.mpr ⟨k, hk, by simpa using hkt⟩)
  unfold forceInServices
  rw [if_neg h1, if_pos (by simpa using h2)]
  refine ⟨rfl, rfl, rfl, rfl, rfl, rfl, by simp⟩

/-- Witness for `forceIn_invalidDest_abort`: one candidate file, blank
destination key. -/
theorem forceIn_invalidDest_abort_witness :
    (forceInServices trivialOracle true [] [⟨"a", []⟩] ["  "] 64).success = false ∧
    (forceInServices trivialOracle true [] [⟨"a", []⟩] ["  "] 64).copiedPhaseSuccessCount = 0 ∧
    (forceInServices trivialOracle true [] [⟨"a", []⟩] ["  "] 64).verifiedPhaseSuccessCount = 0 ∧
    (forceInServices trivialOracle true [] [⟨"a", []⟩] ["  "] 64).deletedPhaseSuccessCount = 0 ∧
    (forceInServices trivialOracle true [] [⟨"a", []⟩] ["  "] 64).calls = [] ∧
    (forceInServices trivialOracle true [] [⟨"a", []⟩] ["  "] 64).filesFullySuccessful = [] ∧
    (forceInServices trivialOracle true [] [⟨"a", []⟩] ["  "] 64).overallErrors ≠ [] := by
  exact forceIn_invalidDest_abort trivialOracle true [] [⟨"a", []⟩] ["  "] 64
    (by simp) (Or.inr ⟨"  ", by simp, by decide⟩)

/-- The candidate scan leaves the accumulator untouched when no element is
splittable. -/
theorem scanForCandidate_of_none (m : Nat) :
    ∀ (l : List HPred) (j : Nat) (acc : Option (List String × Nat)),
      (∀ p ∈ l, isSplittableGroup m p = false) →
      scanForCandidate m (enumeratedFrom j l) acc = some acc
  | [], _, _, _ => rfl
  | p :: t, j, acc, h => by
    have ht : ∀ q ∈ t, isSplittableGroup m q = false :=
      fun q hq => h q (List.mem_cons_of_mem _ hq)
    cases p with
    | str s => exact scanForCandidate_of_none m t (j + 1) acc ht
    | group g =>
      have hg : ¬ m ≤ fileServicePredCount g := by
        have := h (HPred.group g) (List.mem_cons_self _ _)
        simpa [isSplittableGroup] using this
      cases acc with
      | none =>
        rw [enumeratedFrom, scanForCandidate, if_neg hg]
        exact scanForCandidate_of_none m t (j + 1) none ht
      | some x =>
        rw [enumeratedFrom, scanForCandidate, if_neg hg]
        exact scanForCandidate_of_none m t (j + 1) (some x) ht

/-- The candidate scan aborts when a splittable element appears while a
candidate is already held. -/
theorem scanForCandidate_abort (m : Nat) :
    ∀ (l : List HPred) (j : Nat) (x : List String × Nat),
      (∃ p ∈ l, isSplittableGroup m p = true) →
      scanForCandidate m (enumeratedFrom j l) (some x) = none
  | [], _, _, h => by simp at h
  | p :: t, j, x, h => by
    cases p with
    | str s =>
      rcases h with ⟨q, hq, hsq⟩
      rcases List.mem_cons.mp hq with rfl | hq
      · simp [isSplittableGroup] at hsq
      · exact scanForCandidate_abort m t (j + 1) x ⟨q, hq, hsq⟩
    | group g =>
      by_cases hg : m ≤ fileServicePredCount g
      · rw [enumeratedFrom, scanForCandidate, if_pos hg]
      · rcases h with ⟨q, hq, hsq⟩
        rcases List.mem_cons.mp hq with rfl | hq
        · simp [isSplittableGroup, hg] at hsq
        · rw [enumeratedFrom, scanForCandidate, if_neg hg]
          exact scanForCandidate_abort m t (j + 1) x ⟨q, hq, hsq⟩

/-- With exactly one splittable element — the group `g` at position `i` —
the candidate scan returns it (with its absolute index). -/
theorem scanForCandidate_unique (m : Nat) :
    ∀ (l : List HPred) (j i : Nat) (g : List String),
      l[i]? = some (HPred.group g) → m ≤ fileServicePredCount g →
      (l.filter (isSplittableGroup m)).length = 1 →
      scanForCandidate m (enumeratedFrom j l) none = some (some (g, i + j))
  | [], _, i, _, hget, _, _ => by simp at hget
  | p :: t, j, i, g, hget, hg, hcount => by
    cases i with
    | zero =>
      have hp : p = HPred.group g := by simpa using hget
      subst hp
      rw [enumeratedFrom, scanForCandidate, if_pos hg]
      have ht : ∀ q ∈ t, isSplittableGroup m q = false := by
        have hsp : isSplittableGroup m (HPred.group g) = true := by
          simpa [isSplittableGroup] using hg
        rw [List.filter_cons_of_pos hsp] at hcount
        simp only [List.length_cons] at hcount
        have ht0 : (t.filter (isSplittableGroup m)).length = 0 := by omega
        rw [List.length_eq_zero] at ht0
        intro q hq
        by_contra hq2
        have hmem : q ∈ t.filter (isSplittableGroup m) :=
          List.mem_filter.mpr ⟨hq, by simpa using hq2⟩
        simp [ht0] at hmem
      have := scanForCandidate_of_none m t (j + 1) (some (g, j)) ht
      simpa using this
    | succ i2 =>
      have hget2 : t[i2]? = some (HPred.group g) := by simpa using hget
      have hmem : HPred.group g ∈ t := by
        rcases List.getElem?_eq_some.mp hget2 with ⟨hlt, heq⟩
        exact heq ▸ List.getElem_mem hlt
      have hsp : isSplittableGroup m (HPred.group g) = true := by
        simpa [isSplittableGroup] using hg
      cases p with
      | str s =>
        rw [List.filter_cons_of_neg (by simp [isSplittableGroup])] at hcount
        rw [enumeratedFrom, scanForCandidate]
        rw [scanForCandidate_unique m t (j + 1) i2 g hget2 hg hcount]
        congr 3
        omega
      | group g2 =>
        by_cases hg2 : m ≤ fileServicePredCount g2
        · exfalso
          rw [List.filter_cons_of_pos (by simpa [isSplittableGroup] using hg2)] at hcount
          simp only [List.length_cons] at hcount
          have ht0 : (t.filter (isSplittableGroup m)).length = 0 := by omega
          rw [List.length_eq_zero] at ht0
          have := List.filter_eq_nil_iff.mp ht0 _ hmem
          simp [hsp] at this
        · rw [List.filter_cons_of_neg (by simpa [isSplittableGroup] using hg2)] at hcount
          rw [enumeratedFrom, scanForCandidate, if_neg hg2]
          rw [scanForCandidate_unique m t (j + 1) i2 g hget2 hg hcount]
          congr 3
          omega

/-- The candidate scan aborts when at least two elements are splittable. -/
theorem scanForCandidate_multi (m : Nat) :
    ∀ (l : List HPred) (j : Nat),
      2 ≤ (l.filter (isSplittableGroup m)).length →
      scanForCandidate m (enumeratedFrom j l) none = none
  | [], _, h => by simp at h
  | p :: t, j, h => by
    cases p with
    | str s =>
      rw [List.filter_cons_of_neg (by simp [isSplittableGroup])] at h
      exact scanForCandidate_multi m t (j + 1) h
    | group g =>
      by_cases hg : m ≤ fileServicePredCount g
      · rw [List.filter_cons_of_pos (by simpa [isSplittableGroup] using hg)] at h
        simp only [List.length_cons] at h
        rcases List.exists_mem_of_length_pos (by omega :
            0 < (t.filter (isSplittableGroup m)).length) with ⟨q, hq⟩
        rw [List.mem_filter] at hq
        rw [enumeratedFrom, scanForCandidate, if_pos hg]
        exact scanForCandidate_abort m t (j + 1) _ ⟨q, hq.1, hq.2⟩
      · rw [List.filter_cons_of_neg (by simpa [isSplittableGroup] using hg)] at h
        rw [enumeratedFrom, scanForCandidate, if_neg hg]
        exact scanForCandidate_multi m t (j + 1) h

/-- Entries whose index exceeds the dropped index are all kept by the
filter. -/
theorem enumeratedFrom_filterMap_keep :
    ∀ (l : List HPred) (j tgt : Nat), tgt < j →
      (enumeratedFrom j l).filterMap
        (fun e => if e.2 ≠ tgt then some e.1 else none) = l
  | [], _, _, _ => rfl
  | p :: t, j, tgt, h => by
    have hj : j ≠ tgt := by omega
    rw [enumeratedFrom, List.filterMap_cons]
    simp only [hj, ne_eq, not_false_eq_true, if_true]
    rw [enumeratedFrom_filterMap_keep t (j + 1) tgt (by omega)]

/-- Dropping the entry at one index from the indexed view is `eraseIdx`. -/
theorem enumeratedFrom_filterMap_ne :
    ∀ (l : List HPred) (i j : Nat),
      (enumeratedFrom j l).filterMap
        (fun e => if e.2 ≠ i + j then some e.1 else none) = l.eraseIdx i
  | [], _, _ => rfl
  | p :: t, 0, j => by
    rw [enumeratedFrom, List.filterMap_cons]
    simp only [Nat.zero_add, ne_eq, not_true_eq_false, if_false]
    rw [enumeratedFrom_filterMap_keep t (j + 1) j (by omega)]
    rfl
  | p :: t, i + 1, j => by
    have hj : j ≠ (i + 1) + j := by omega
    rw [enumeratedFrom, List.filterMap_cons]
    simp only [hj, ne_eq, not_false_eq_true, if_true]
    rw [show (i + 1) + j = i + (j + 1) by omega]
    rw [enumeratedFrom_filterMap_ne t i (j + 1)]
    rfl

/-- Claim C6: a predicate list with exactly one OR-group holding at least 3
file-service membership predicates splits into one full query per
file-service predicate of that group — each made of all predicates outside
the group, the group's non-file-service members, and exactly one of the
file-service predicates; with zero or more than one such group the original
list is returned unchanged as a single query. -/
theorem prepareSequentialSearches_split_spec (preds : List HPred) :
    ((preds.filter (isSplittableGroup 3)).length ≠ 1 →
      prepareSequentialSearchesIfNeeded preds = [preds]) ∧
    (∀ i g, preds[i]? = some (HPred.group g) → 3 ≤ fileServicePredCount g →
      (preds.filter (isSplittableGroup 3)).length = 1 →
      prepareSequentialSearchesIfNeeded preds =
        (g.filter isFileServicePredicate).map (fun p =>
          preds.eraseIdx i ++
          (g.filter (fun q => ¬ isFileServicePredicate q)).map HPred.str ++
          [HPred.str p])) := by
  constructor
  · intro hne
    unfold prepareSequentialSearchesIfNeeded
    rcases Nat.lt_or_ge (preds.filter (isSplittableGroup 3)).length 1 with hlt | hge
    · have h0 : (preds.filter (isSplittableGroup 3)).length = 0 := by omega
      rw [List.length_eq_zero] at h0
      have hall : ∀ p ∈ preds, isSplittableGroup 3 p = false := by
        intro p hp
        by_contra hc
        have hmem : p ∈ preds.filter (isSplittableGroup 3) :=
          List.mem_filter.mpr ⟨hp, by simpa using hc⟩
        simp [h0] at hmem
      rw [enumerated, scanForCandidate_of_none 3 preds 0 none hall]
      rfl
    · have h2 : 2 ≤ (preds.filter (isSplittableGroup 3)).length := by omega
      rw [enumerated, scanForCandidate_multi 3 preds 0 h2]
      rfl
  · intro i g hget hsp hcount
    unfold prepareSequentialSearchesIfNeeded
    rw [enumerated, scanForCandidate_unique 3 preds 0 i g hget hsp hcount]
    show splitQueries preds g (i + 0) = _
    unfold splitQueries
    rw [enumerated, enumeratedFrom_filterMap_ne preds i 0]

/-- Witness for `prepareSequentialSearches_split_spec`: a group of three
file-service predicates plus one common predicate, next to one static
predicate, yields three AND queries. -/
theorem prepareSequentialSearches_split_spec_witness :
    prepareSequentialSearchesIfNeeded
        [HPred.str "system:archive",
         HPred.group ["system:file service currently in A",
                      "system:file service currently in B",
                      "system:file service is not currently in C", "other"]] =
      (["system:file service currently in A",
        "system:file service currently in B",
        "system:file service is not currently in C", "other"].filter
          isFileServicePredicate).map (fun p =>
        [HPred.str "system:archive",
         HPred.group ["system:file service currently in A",
                      "system:file service currently in B",
                      "system:file service is not currently in C",
                      "other"]].eraseIdx 1 ++
        (["system:file service currently in A",
          "system:file service currently in B",
          "system:file service is not currently in C", "other"].filter
            (fun q => ¬ isFileServicePredicate q)).map HPred.str ++
        [HPred.str p]) := by
  exact (prepareSequentialSearches_split_spec _).2 1 _ rfl (by decide) (by decide)

/-- Transitivity of the composite sort-key comparison. -/
theorem compositeLe_trans : ∀ (a b c : Rule),
    compositeLe a b → compositeLe b c → compositeLe a c := by
  intro a b c hab hbc
  simp only [compositeLe, Bool.or_eq_true, Bool.and_eq_true, decide_eq_true_eq] at *
  rcases hab with h1 | ⟨h1, hab2⟩
  · rcases hbc with g1 | ⟨g1, _⟩
    · exact Or.inl (by omega)
    · exact Or.inl (by omega)
  · rcases hbc with g1 | ⟨g1, gbc2⟩
    · exact Or.inl (by omega)
    · refine Or.inr ⟨by omega, ?_⟩
      rcases hab2 with h2 | ⟨h2, h3⟩
      · rcases gbc2 with g2 | ⟨g2, _⟩
        · exact Or.inl (by omega)
        · exact Or.inl (by omega)
      · rcases gbc2 with g2 | ⟨g2, g3⟩
        · exact Or.inl (by omega)
        · exact Or.inr ⟨by omega, le_trans h3 g3⟩

/-- Totality of the composite sort-key comparison. -/
theorem compositeLe_total : ∀ (a b : Rule), compositeLe a b || compositeLe b a := by
  intro a b
  simp only [compositeLe, Bool.or_eq_true, Bool.and_eq_true, decide_eq_true_eq]
  rcases lt_trichotomy (importanceNumber a) (importanceNumber b) with h | h | h
  · exact Or.inl (Or.inl h)
  · rcases Nat.lt_trichotomy (isNotForceInFlag a) (isNotForceInFlag b) with h2 | h2 | h2
    · exact Or.inl (Or.inr ⟨h, Or.inl h2⟩)
    · rcases le_total a.creationTimestamp b.creationTimestamp with h3 | h3
      · exact Or.inl (Or.inr ⟨h, Or.inr ⟨h2, h3⟩⟩)
      · exact Or.inr (Or.inr ⟨h.symm, Or.inr ⟨h2.symm, h3⟩⟩)
    · exact Or.inr (Or.inr ⟨h.symm, Or.inl h2⟩)
  · exact Or.inr (Or.inl h)

/-- Transitivity of the raw-priority comparison. -/
theorem rawPriorityLe_trans : ∀ (a b c : Rule),
    rawPriorityLe a b → rawPriorityLe b c → rawPriorityLe a c := by
  intro a b c hab hbc
  simp only [rawPriorityLe, decide_eq_true_eq] at *
  omega

/-- Totality of the raw-priority comparison. -/
theorem rawPriorityLe_total : ∀ (a b : Rule), rawPriorityLe a b || rawPriorityLe b a := by
  intro a b
  simp only [rawPriorityLe, Bool.or_eq_true, decide_eq_true_eq]
  omega

/-- When every rule carries a priority value, a list sorted by the composite
key is also sorted by the raw-priority key used by the route-level
re-sorts. -/
theorem pairwise_composite_to_raw (l : List Rule)
    (hp : ∀ r ∈ l, (r.priority).isSome)
    (h : l.Pairwise (fun a b => compositeLe a b = true)) :
    l.Pairwise (fun a b => rawPriorityLe a b = true) := by
  refine List.Pairwise.imp_of_mem ?_ h
  intro a b ha hb hab
  rcases Option.isSome_iff_exists.mp (hp a ha) with ⟨pa, hpa⟩
  rcases Option.isSome_iff_exists.mp (hp b hb) with ⟨pb, hpb⟩
  simp only [compositeLe, Bool.or_eq_true, Bool.and_eq_true, decide_eq_true_eq,
    importanceNumber, hpa, hpb, Option.getD_some] at hab
  simp only [rawPriorityLe, hpa, hpb, Option.getD_some, decide_eq_true_eq]
  rcases hab with h1 | ⟨h1, _⟩
  · omega
  · omega

/-- A `force_in` rule with priority 1 and a priority-less `add_to` rule: at
composite keys the importances tie at 1 (`int(rule.get('priority', 1))`),
so the `force_in` rule sorts first, but the route-level re-sort key
`r.get('priority', 0)` reads 0 for the priority-less rule and moves it
ahead. -/
def forceInRuleC7 : Rule := ⟨"b", some 1, "force_in", "2024-01-01 00:00:00"⟩

/-- The priority-less `add_to` rule of the pair refuting claim C7. -/
def noPriorityRuleC7 : Rule := ⟨"a", none, "add_to", "2024-01-02 00:00:00"⟩

/-- Counterexample to claim C7 as stated: for the two-rule batch
[`forceInRuleC7`, `noPriorityRuleC7`] the composite order puts the
`force_in` rule first (equal importance 1, `force_in` before `add_to`), but
the manual run-all route's stable re-sort by `r.get('priority', 0)`
(`views/rules.py`) reads priority 0 for the priority-less rule and executes
it first, so the executed order is not ascending in the composite key. -/
theorem crossRuleExecutionOrder_counterexample :
    manualRunAllOrder [forceInRuleC7, noPriorityRuleC7] =
      [noPriorityRuleC7, forceInRuleC7] ∧
    compositeLe noPriorityRuleC7 forceInRuleC7 = false ∧
    ¬ (manualRunAllOrder [forceInRuleC7, noPriorityRuleC7]).Pairwise
        (fun a b => compositeLe a b = true) := by
  have hpair : ([forceInRuleC7, noPriorityRuleC7] : List Rule).Pairwise
      (fun a b => compositeLe a b = true) := by
    constructor
    · intro b hb
      rw [List.mem_singleton.mp hb]
      decide
    · exact List.pairwise_singleton _ _
  have hload : loadRulesOrder [forceInRuleC7, noPriorityRuleC7] =
      [forceInRuleC7, noPriorityRuleC7] := List.mergeSort_of_sorted hpair
  have hre : List.mergeSort [forceInRuleC7, noPriorityRuleC7] rawPriorityLe =
      [noPriorityRuleC7, forceInRuleC7] := by
    obtain ⟨l1, l2, heq, hsplit, hmem⟩ :=
      List.mergeSort_cons rawPriorityLe_trans rawPriorityLe_total
        forceInRuleC7 [noPriorityRuleC7]
    have hsingle : List.mergeSort [noPriorityRuleC7] rawPriorityLe =
        [noPriorityRuleC7] :=
      List.mergeSort_of_sorted (List.pairwise_singleton _ _)
    rw [hsingle] at hsplit
    cases l1 with
    | nil =>
      simp only [List.nil_append] at hsplit heq
      rw [← hsplit] at heq
      have hsorted := List.sorted_mergeSort rawPriorityLe_trans rawPriorityLe_total
        [forceInRuleC7, noPriorityRuleC7]
      rw [heq] at hsorted
      have hba := (List.pairwise_cons.mp hsorted).1 noPriorityRuleC7
        (List.mem_singleton_self _)
      exact absurd hba (by decide)
    | cons x l1t =>
      simp only [List.cons_append] at hsplit
      injection hsplit with h1 h2
      have h3 := List.append_eq_nil.mp h2.symm
      rw [← h1, h3.1, h3.2] at heq
      exact heq.trans rfl
  have hmain : manualRunAllOrder [forceInRuleC7, noPriorityRuleC7] =
      [noPriorityRuleC7, forceInRuleC7] := by
    unfold manualRunAllOrder
    rw [hload]
    exact hre
  refine ⟨hmain, by decide, ?_⟩
  intro hcontra
  rw [hmain] at hcontra
  have h2 := (List.pairwise_cons.mp hcontra).1 forceInRuleC7 (List.mem_singleton_self _)
  exact absurd h2 (by decide)

/-- Claim C7 (amended): provided every rule carries a priority value, every
batch execution path — manual run-all, set runs, and scheduler tick
batches — executes rules in ascending order of the composite key
(importance, then force_in before other action types at equal importance,
then ascending creation timestamp).  The proviso is necessary: the manual
and set routes re-sort the composite order by the raw `priority` field with
`r.get('priority', 0)`, whose default 0 disagrees with the composite
importance default 1 for rules without a priority value (see the
counterexample); the scheduler tick path preserves the composite order
unconditionally. -/
theorem crossRuleExecutionOrder_spec (rules : List Rule)
    (hp : ∀ r ∈ rules, (r.priority).isSome) :
    (manualRunAllOrder rules).Pairwise (fun a b => compositeLe a b = true) ∧
    (∀ due : String → Bool,
      (tickOrder rules due).Pairwise (fun a b => compositeLe a b = true)) ∧
    (∀ inSet : String → Bool,
      (setRunOrder rules inSet).Pairwise (fun a b => compositeLe a b = true)) := by
  have hload : (loadRulesOrder rules).Pairwise (fun a b => compositeLe a b = true) :=
    List.sorted_mergeSort compositeLe_trans compositeLe_total rules
  have hmemload : ∀ r ∈ loadRulesOrder rules, (r.priority).isSome := by
    intro r hr
    exact hp r ((List.mergeSort_perm rules compositeLe).mem_iff.mp hr)
  refine ⟨?_, ?_, ?_⟩
  · unfold manualRunAllOrder
    rw [List.mergeSort_of_sorted (pairwise_composite_to_raw _ hmemload hload)]
    exact hload
  · intro due
    exact hload.filter _
  · intro inSet
    have hf : ((loadRulesOrder rules).filter (fun r => inSet r.id)).Pairwise
        (fun a b => compositeLe a b = true) := hload.filter _
    have hfm : ∀ r ∈ (loadRulesOrder rules).filter (fun r => inSet r.id),
        (r.priority).isSome := by
      intro r hr
      exact hmemload r (List.mem_of_mem_filter hr)
    unfold setRunOrder
    rw [List.mergeSort_of_sorted (pairwise_composite_to_raw _ hfm hf)]
    exact hf

/-- The spec's worked example: importances [2,1,1] with action types
[add_to, force_in, add_to]. -/
def exampleRules : List Rule :=
  [⟨"a", some 2, "add_to", "2024-01-01 00:00:00"⟩,
   ⟨"b", some 1, "force_in", "2024-01-03 00:00:00"⟩,
   ⟨"c", some 1, "add_to", "2024-01-02 00:00:00"⟩]

/-- Witness for `crossRuleExecutionOrder_spec` on the spec's example
rules. -/
theorem crossRuleExecutionOrder_spec_witness :
    (manualRunAllOrder exampleRules).Pairwise (fun a b => compositeLe a b = true) ∧
    (∀ due : String → Bool,
      (tickOrder exampleRules due).Pairwise (fun a b => compositeLe a b = true)) ∧
    (∀ inSet : String → Bool,
      (setRunOrder exampleRules inSet).Pairwise (fun a b => compositeLe a b = true)) :=
  crossRuleExecutionOrder_spec exampleRules (by decide)

/-- The consecutive slices taken by the batch loop reassemble to the input
list. -/
theorem chunks_flatten (bs : Nat) (hbs : 0 < bs) :
    ∀ l : List α, (chunks bs l).flatten = l
  | [] => by rw [chunks]; rfl
  | a :: t => by
    rw [chunks, if_neg (by omega : ¬ bs = 0), List.flatten_cons,
      chunks_flatten bs hbs ((a :: t).drop bs), List.take_append_drop]
termination_by l => l.length
decreasing_by
  simp only [List.length_drop, List.length_cons]
  omega

/-- Every slice is non-empty and no longer than the batch size. -/
theorem chunks_props (bs : Nat) (hbs : 0 < bs) :
    ∀ (l : List α), ∀ c ∈ chunks bs l, c ≠ [] ∧ c.length ≤ bs
  | [] => by rw [chunks]; intro c hc; simp at hc
  | a :: t => by
    rw [chunks, if_neg (by omega : ¬ bs = 0)]
    intro c hc
    rcases List.mem_cons.mp hc with rfl | hc
    · constructor
      · rw [List.take_cons (by omega : 0 < bs)]
        simp
      · simp only [List.length_take, List.length_cons]
        exact Nat.min_le_left bs (t.length + 1)
    · exact chunks_props bs hbs ((a :: t).drop bs) c hc
termination_by l => l.length
decreasing_by
  simp only [List.length_drop, List.length_cons]
  omega

/-- Characterization of the individual-retry inner loop. -/
theorem retryLoop_spec (singleRes : α → ApiResult) :
    ∀ (c succ : List α) (failed : List (α × String × Option Int))
      (calls : List (BCall α)),
      retryLoop singleRes c succ failed calls =
        (succ ++ c.filter (fun x => (singleRes x).success),
         failed ++ (c.filter (fun x => !(singleRes x).success)).map
           (fun x => (x, (singleRes x).message, (singleRes x).status)),
         calls ++ c.map BCall.single)
  | [], succ, failed, calls => by simp [retryLoop]
  | x :: t, succ, failed, calls => by
    simp only [retryLoop]
    by_cases hx : (singleRes x).success = true
    · rw [if_pos hx, retryLoop_spec singleRes t]
      simp [hx, List.filter_cons, List.append_assoc]
    · rw [if_neg hx, retryLoop_spec singleRes t]
      simp only [Bool.not_eq_true] at hx
      simp [hx, List.filter_cons, List.append_assoc]

/-- Characterization of the outer per-batch loop over non-empty batches. -/
theorem batchLoop_spec (bulkRes : List α → ApiResult) (singleRes : α → ApiResult) :
    ∀ (chs : List (List α)) (succ : List α)
      (failed : List (α × String × Option Int)) (calls : List (BCall α)),
      (∀ c ∈ chs, c ≠ []) →
      batchLoop bulkRes singleRes chs succ failed calls =
        ⟨succ ++ chs.flatMap (fun c =>
            if (bulkRes c).success then c
            else c.filter (fun x => (singleRes x).success)),
         failed ++ chs.flatMap (fun c =>
            if (bulkRes c).success then []
            else (c.filter (fun x => !(singleRes x).success)).map
              (fun x => (x, (singleRes x).message, (singleRes x).status))),
         calls ++ chs.flatMap (fun c =>
            BCall.bulk c ::
              (if (bulkRes c).success then [] else c.map BCall.single))⟩
  | [], succ, failed, calls, _ => by simp [batchLoop]
  | c :: rest, succ, failed, calls, hne => by
    have hc : ¬ c.isEmpty = true := by
      simpa [List.isEmpty_iff] using hne c (List.mem_cons_self _ _)
    have hrest : ∀ d ∈ rest, d ≠ [] := fun d hd => hne d (List.mem_cons_of_mem _ hd)
    simp only [batchLoop]
    rw [if_neg hc]
    by_cases hb : (bulkRes c).success = true
    · rw [if_pos hb, batchLoop_spec bulkRes singleRes rest _ _ _ hrest]
      simp [hb, List.append_assoc]
    · rw [if_neg hb, retryLoop_spec singleRes]
      rw [batchLoop_spec bulkRes singleRes rest _ _ _ hrest]
      simp [hb, List.append_assoc]

/-- Claim C5: `batch_api_call_with_retry` partitions the items into
consecutive batches of the given size (non-empty, reassembling to the input)
and issues exactly one bulk call per batch; the items of a batch whose bulk
call failed — and only those — are retried with one individual call each,
individually succeeding items joining `successful_items` and individually
failing items joining `failed_items_with_errors` with their specific error
message and status; items of batches whose bulk call succeeded all land in
`successful_items` without retries. -/
theorem batchApiCallWithRetry_spec (items : List α) (bs : Nat)
    (bulkRes : List α → ApiResult) (singleRes : α → ApiResult) (hbs : 0 < bs) :
    (chunks bs items).flatten = items ∧
    (∀ c ∈ chunks bs items, c ≠ [] ∧ c.length ≤ bs) ∧
    batchApiCallWithRetry true items bs bulkRes singleRes =
      ⟨(chunks bs items).flatMap (fun c =>
          if (bulkRes c).success then c
          else c.filter (fun x => (singleRes x).success)),
       (chunks bs items).flatMap (fun c =>
          if (bulkRes c).success then []
          else (c.filter (fun x => !(singleRes x).success)).map
            (fun x => (x, (singleRes x).message, (singleRes x).status))),
       (chunks bs items).flatMap (fun c =>
          BCall.bulk c ::
            (if (bulkRes c).success then [] else c.map BCall.single))⟩ := by
  refine ⟨chunks_flatten bs hbs items, chunks_props bs hbs items, ?_⟩
  unfold batchApiCallWithRetry
  by_cases hi : items.isEmpty = true
  · have : items = [] := by simpa [List.isEmpty_iff] using hi
    subst this
    rw [if_pos hi, chunks]
    rfl
  · rw [if_neg hi]
    simp only [not_true_eq_false, if_false, Bool.not_true, reduceIte]
    rw [batchLoop_spec bulkRes singleRes _ _ _ _
      (fun c hc => (chunks_props bs hbs items c hc).1)]
    simp

/-- Witness for `batchApiCallWithRetry_spec`: 10 items, batch size 4, the
middle batch's bulk call fails and item 6 also fails individually. -/
theorem batchApiCallWithRetry_spec_witness :
    (chunks 4 (List.range 10)).flatten = List.range 10 ∧
    (∀ c ∈ chunks 4 (List.range 10), c ≠ [] ∧ c.length ≤ 4) ∧
    batchApiCallWithRetry true (List.range 10) 4
        (fun c => ⟨decide (5 ∉ c), "bulk boom", some 500⟩)
        (fun x => ⟨decide (x ≠ 6), "item " ++ toString x ++ " boom", some 400⟩) =
      ⟨(chunks 4 (List.range 10)).flatMap (fun c =>
          if (⟨decide (5 ∉ c), "bulk boom", some 500⟩ : ApiResult).success then c
          else c.filter (fun x =>
            (⟨decide (x ≠ 6), "item " ++ toString x ++ " boom", some 400⟩ : ApiResult).success)),
       (chunks 4 (List.range 10)).flatMap (fun c =>
          if (⟨decide (5 ∉ c), "bulk boom", some 500⟩ : ApiResult).success then []
          else (c.filter (fun x =>
              !(⟨decide (x ≠ 6), "item " ++ toString x ++ " boom", some 400⟩ : ApiResult).success)).map
            (fun x => (x,
              (⟨decide (x ≠ 6), "item " ++ toString x ++ " boom", some 400⟩ : ApiResult).message,
              (⟨decide (x ≠ 6), "item " ++ toString x ++ " boom", some 400⟩ : ApiResult).status))),
       (chunks 4 (List.range 10)).flatMap (fun c =>
          BCall.bulk c ::
            (if (⟨decide (5 ∉ c), "bulk boom", some 500⟩ : ApiResult).success then []
             else c.map BCall.single))⟩ :=
  batchApiCallWithRetry_spec (List.range 10) 4
    (fun c => ⟨decide (5 ∉ c), "bulk boom", some 500⟩)
    (fun x => ⟨decide (x ≠ 6), "item " ++ toString x ++ " boom", some 400⟩)
    (by decide)

/-- Membership after a set-style insert. -/
theorem mem_insertNew [DecidableEq α] (l : List α) (a x : α) :
    x ∈ insertNew l a ↔ x ∈ l ∨ x = a := by
  unfold insertNew
  split
  · rename_i h
    constructor
    · exact Or.inl
    · rintro (hx | rfl)
      · exact hx
      · exact h
  · simp

/-- A set-style insert preserves freedom from duplicates. -/
theorem nodup_insertNew [DecidableEq α] (l : List α) (a : α) (h : l.Nodup) :
    (insertNew l a).Nodup := by
  unfold insertNew
  split
  · exact h
  · rename_i ha
    simpa [List.nodup_append] using ⟨h, ha⟩

/-- Membership through the fold that models Python `set(...)`. -/
theorem mem_foldl_insertNew [DecidableEq α] :
    ∀ (l acc : List α) (x : α), x ∈ l.foldl insertNew acc ↔ x ∈ acc ∨ x ∈ l
  | [], acc, x => by simp
  | a :: t, acc, x => by
    rw [List.foldl_cons, mem_foldl_insertNew t, mem_insertNew]
    constructor
    · rintro ((h | rfl) | h)
      · exact Or.inl h
      · exact Or.inr (List.mem_cons_self _ _)
      · exact Or.inr (List.mem_cons_of_mem _ h)
    · rintro (h | h)
      · exact Or.inl (Or.inl h)
      · rcases List.mem_cons.mp h with rfl | h
        · exact Or.inl (Or.inr rfl)
        · exact Or.inr h

/-- The fold that models Python `set(...)` yields a duplicate-free list. -/
theorem nodup_foldl_insertNew [DecidableEq α] :
    ∀ (l acc : List α), acc.Nodup → (l.foldl insertNew acc).Nodup
  | [], _, h => h
  | a :: t, acc, h =>
    nodup_foldl_insertNew t (insertNew acc a) (nodup_insertNew acc a h)

/-- Length bound for the fold that models Python `set(...)`. -/
theorem length_foldl_insertNew [DecidableEq α] :
    ∀ (l acc : List α), (l.foldl insertNew acc).length ≤ acc.length + l.length
  | [], _ => by simp
  | a :: t, acc => by
    rw [List.foldl_cons]
    have h1 : (insertNew acc a).length ≤ acc.length + 1 := by
      unfold insertNew
      split
      · omega
      · simp
    have h2 := length_foldl_insertNew t (insertNew acc a)
    simp only [List.length_cons]
    omega

/-- Membership in the Python-set model. -/
theorem mem_dedupKeepFirst [DecidableEq α] (l : List α) (x : α) :
    x ∈ dedupKeepFirst l ↔ x ∈ l := by
  unfold dedupKeepFirst
  rw [mem_foldl_insertNew]
  simp

/-- The Python-set model is duplicate-free. -/
theorem nodup_dedupKeepFirst [DecidableEq α] (l : List α) :
    (dedupKeepFirst l).Nodup :=
  nodup_foldl_insertNew l [] List.nodup_nil

/-- The Python-set model never grows the list. -/
theorem length_dedupKeepFirst_le [DecidableEq α] (l : List α) :
    (dedupKeepFirst l).length ≤ l.length := by
  have := length_foldl_insertNew l ([] : List α)
  simpa [dedupKeepFirst] using this

/-- Entries of a `setdefault`-style insert. -/
theorem mem_setdefaultPhase (m : List (String × String)) (h ph : String)
    (e : String × String) (he : e ∈ setdefaultPhase m h ph) :
    e ∈ m ∨ e = (h, ph) := by
  unfold setdefaultPhase at he
  split at he
  · exact Or.inl he
  · rcases List.mem_append.mp he with h1 | h1
    · exact Or.inl h1
    · exact Or.inr (by simpa using h1)

/-- Entries after folding `setdefault` over a failure list. -/
theorem mem_foldl_setdefault {β : Type} (ph : String) (f : β → String) :
    ∀ (L : List β) (em : List (String × String)) (e : String × String),
      e ∈ L.foldl (fun m x => setdefaultPhase m (f x) ph) em →
      e ∈ em ∨ ∃ x ∈ L, e = (f x, ph)
  | [], em, e, he => Or.inl he
  | b :: t, em, e, he => by
    rcases mem_foldl_setdefault ph f t _ e he with h1 | ⟨x, hx, hex⟩
    · rcases mem_setdefaultPhase em (f b) ph e h1 with h2 | h2
      · exact Or.inl h2
      · exact Or.inr ⟨b, List.mem_cons_self _ _, h2⟩
    · exact Or.inr ⟨x, List.mem_cons_of_mem _ hx, hex⟩

/-- Hashes appearing in the delete map after one append. -/
theorem mem_appendAssoc (m : List (String × List String)) (k h : String)
    (pr : String × List String) (hpr : pr ∈ appendAssoc m k h) (x : String)
    (hx : x ∈ pr.2) : (∃ pr0 ∈ m, x ∈ pr0.2) ∨ x = h := by
  unfold appendAssoc at hpr
  split at hpr
  · rcases List.mem_map.mp hpr with ⟨e, he, heq⟩
    by_cases hek : e.1 = k
    · rw [if_pos hek] at heq
      subst heq
      rcases List.mem_append.mp hx with h1 | h1
      · exact Or.inl ⟨e, he, h1⟩
      · exact Or.inr (by simpa using h1)
    · rw [if_neg hek] at heq
      subst heq
      exact Or.inl ⟨e, he, hx⟩
  · rcases List.mem_append.mp hpr with h1 | h1
    · exact Or.inl ⟨pr, h1, hx⟩
    · have : pr = (k, [h]) := by simpa using h1
      subst this
      exact Or.inr (by simpa using hx)

/-- Hashes appearing in the delete map after folding appends of one
hash over a service list. -/
theorem mem_foldl_appendAssoc (h : String) :
    ∀ (sks : List String) (m : List (String × List String))
      (pr : String × List String),
      pr ∈ sks.foldl (fun ds sk => appendAssoc ds sk h) m →
      ∀ x ∈ pr.2, (∃ pr0 ∈ m, x ∈ pr0.2) ∨ x = h
  | [], m, pr, hpr, x, hx => Or.inl ⟨pr, hpr, hx⟩
  | sk :: t, m, pr, hpr, x, hx => by
    rcases mem_foldl_appendAssoc h t _ pr hpr x hx with h1 | h1
    · rcases h1 with ⟨pr0, hpr0, hx0⟩
      exact mem_appendAssoc m sk h pr0 hpr0 x hx0
    · exact Or.inr h1

/-- Every element of a slice is an element of the sliced list. -/
theorem chunks_subset (bs : Nat) :
    ∀ (l : List α), ∀ c ∈ chunks bs l, ∀ x ∈ c, x ∈ l
  | [] => by
    rw [chunks]
    intro c hc
    simp at hc
  | a :: t => by
    rw [chunks]
    split
    · intro c hc
      simp at hc
    · intro c hc x hx
      rcases List.mem_cons.mp hc with rfl | hc
      · exact List.take_subset _ _ hx
      · exact List.drop_subset _ _ (chunks_subset bs ((a :: t).drop bs) c hc x hx)
termination_by l => l.length
decreasing_by
  simp only [List.length_drop, List.length_cons]
  omega

/-- A failed item reported by the batch helper is one of the input items
(for any API-configured flag and batch size). -/
theorem batch_failed_input_mem (api : Bool) (items : List α) (bs : Nat)
    [DecidableEq α]
    (bulkRes : List α → ApiResult) (singleRes : α → ApiResult) :
    ∀ e ∈ (batchApiCallWithRetry api items bs bulkRes singleRes).failedItemsWithErrors,
      e.1 ∈ items := by
  have hloop : ∀ (chs : List (List α)) (succ : List α)
      (failed : List (α × String × Option Int)) (calls : List (BCall α)),
      ∀ e ∈ (batchLoop bulkRes singleRes chs succ failed calls).failedItemsWithErrors,
        e ∈ failed ∨ ∃ c ∈ chs, e.1 ∈ c := by
    intro chs
    induction chs with
    | nil => intro succ failed calls e he; exact Or.inl he
    | cons c rest ih =>
      intro succ failed calls e he
      rw [batchLoop] at he
      split at he
      · rcases ih _ _ _ e he with h1 | ⟨d, hd, hed⟩
        · exact Or.inl h1
        · exact Or.inr ⟨d, List.mem_cons_of_mem _ hd, hed⟩
      · simp only [] at he
        split at he
        · rcases ih _ _ _ e he with h1 | ⟨d, hd, hed⟩
          · exact Or.inl h1
          · exact Or.inr ⟨d, List.mem_cons_of_mem _ hd, hed⟩
        · rw [retryLoop_spec] at he
          rcases ih _ _ _ e he with h1 | ⟨d, hd, hed⟩
          · rcases List.mem_append.mp h1 with h2 | h2
            · exact Or.inl h2
            · rcases List.mem_map.mp h2 with ⟨x, hx, hex⟩
              refine Or.inr ⟨c, List.mem_cons_self _ _, ?_⟩
              rw [← hex]
              exact List.mem_of_mem_filter hx
          · exact Or.inr ⟨d, List.mem_cons_of_mem _ hd, hed⟩
  intro e he
  unfold batchApiCallWithRetry at he
  split at he
  · simp at he
  · split at he
    · rcases List.mem_map.mp he with ⟨x, hx, hex⟩
      rw [← hex]
      exact hx
    · rcases hloop _ _ _ _ e he with h1 | ⟨c, hc, hec⟩
      · simp at h1
      · exact chunks_subset bs items c hc e.1 hec

/-- Phase-1 invariant: survivors only shrink (as a sublist), and every error
entry either predates the phase or is a `copy`-phase entry for a file no
longer surviving. -/
theorem copyPhase_invariant (o : Oracle) (api : Bool) (bs : Nat) :
    ∀ (ds surv : List String) (em : List (String × String)) (calls : List FCall),
      (copyPhase o api bs ds surv em calls).1.Sublist surv ∧
      (∀ e ∈ (copyPhase o api bs ds surv em calls).2.1,
        e ∈ em ∨ (e.2 = "copy" ∧ e.1 ∉ (copyPhase o api bs ds surv em calls).1))
  | [], surv, em, calls => ⟨List.Sublist.refl _, fun _ he => Or.inl he⟩
  | d :: rest, surv, em, calls => by
    rw [copyPhase]
    split
    · exact ⟨List.Sublist.refl _, fun _ he => Or.inl he⟩
    · simp only []
      refine ⟨(copyPhase_invariant o api bs rest _ _ _).1.trans
        (List.filter_sublist _), ?_⟩
      intro e he
      rcases (copyPhase_invariant o api bs rest _ _ _).2 e he with h1 | h1
      · rcases mem_foldl_setdefault "copy"
            (fun x : String × String × Option Int => x.1) _ em e h1 with h2 | ⟨x, hx, hex⟩
        · exact Or.inl h2
        · refine Or.inr ⟨by rw [hex], ?_⟩
          rw [hex]
          intro hmem
          have hsub := (copyPhase_invariant o api bs rest _ _ _).1.subset hmem
          rw [List.mem_filter] at hsub
          have hany : (batchApiCallWithRetry api surv bs (o.copyBulk d)
              (o.copySingle d)).failedItemsWithErrors.any (fun e => e.1 = x.1) = true :=
            List.any_eq_true.mpr ⟨x, hx, by simp⟩
          have := of_decide_eq_true hsub.2
          exact this hany
      · exact Or.inr h1

/-- Inner-loop invariant for the discard of one failed metadata batch. -/
theorem verifyDiscardHashes_invariant :
    ∀ (hs surv : List String) (em : List (String × String)),
      (verifyDiscardHashes hs surv em).1.Sublist surv ∧
      (∀ e ∈ (verifyDiscardHashes hs surv em).2,
        e ∈ em ∨ (e.2 = "verify" ∧ e.1 ∉ (verifyDiscardHashes hs surv em).1))
  | [], surv, em => ⟨List.Sublist.refl _, fun _ he => Or.inl he⟩
  | h :: t, surv, em => by
    rw [verifyDiscardHashes]
    split
    · refine ⟨(verifyDiscardHashes_invariant t _ _).1.trans
        (List.filter_sublist _), ?_⟩
      intro e he
      rcases (verifyDiscardHashes_invariant t _ _).2 e he with h1 | h1
      · rcases mem_setdefaultPhase em h "verify" e h1 with h2 | h2
        · exact Or.inl h2
        · subst h2
          refine Or.inr ⟨rfl, ?_⟩
          intro hmem
          have hsub := (verifyDiscardHashes_invariant t _ _).1.subset hmem
          rw [List.mem_filter] at hsub
          simp at hsub
      · exact Or.inr h1
    · exact verifyDiscardHashes_invariant t surv em

/-- Phase-2 discard invariant over all failed metadata batches. -/
theorem verifyDiscard_invariant :
    ∀ (errs : List FetchErr) (surv : List String) (em : List (String × String)),
      (verifyDiscard errs surv em).1.Sublist surv ∧
      (∀ e ∈ (verifyDiscard errs surv em).2,
        e ∈ em ∨ (e.2 = "verify" ∧ e.1 ∉ (verifyDiscard errs surv em).1))
  | [], surv, em => ⟨List.Sublist.refl _, fun _ he => Or.inl he⟩
  | er :: rest, surv, em => by
    rw [verifyDiscard]
    obtain ⟨hs1, hs2⟩ := verifyDiscardHashes_invariant er.2.1 surv em
    obtain ⟨hr1, hr2⟩ := verifyDiscard_invariant rest
      (verifyDiscardHashes er.2.1 surv em).1 (verifyDiscardHashes er.2.1 surv em).2
    refine ⟨hr1.trans hs1, ?_⟩
    intro e he
    rcases hr2 e he with h1 | h1
    · rcases hs2 e h1 with h2 | h2
      · exact Or.inl h2
      · exact Or.inr ⟨h2.1, fun hmem => h2.2 (hr1.subset hmem)⟩
    · exact Or.inr h1

/-- Phase-2 scan invariant: verified files come from the surviving set and
the scanned metadata, no duplicates appear, and every new error entry is a
`verify`-phase entry for a file that did not verify — provided the scanned
metadata carries each hash at most once and none of the already-verified
hashes reappears. -/
theorem verifyScan_invariant (dks : List String) :
    ∀ (metas : List Meta) (surv ver : List String) (em : List (String × String)),
      (metas.map Meta.hash).Nodup →
      (∀ h ∈ ver, h ∉ metas.map Meta.hash) →
      (∀ h ∈ (verifyScan dks metas surv ver em).1,
        h ∈ ver ∨ (h ∈ surv ∧ h ∈ metas.map Meta.hash)) ∧
      (ver.Nodup → (verifyScan dks metas surv ver em).1.Nodup) ∧
      (∀ e ∈ (verifyScan dks metas surv ver em).2,
        e ∈ em ∨ (e.2 = "verify" ∧ e.1 ∉ (verifyScan dks metas surv ver em).1))
  | [], surv, ver, em, _, _ =>
    ⟨fun _ hh => Or.inl hh, fun hn => hn, fun _ he => Or.inl he⟩
  | m :: rest, surv, ver, em, hnd, hdisj => by
    have hnd2 : (rest.map Meta.hash).Nodup := (List.nodup_cons.mp (by simpa using hnd)).2
    have hmh : m.hash ∉ rest.map Meta.hash := (List.nodup_cons.mp (by simpa using hnd)).1
    rw [verifyScan]
    split
    · have hdisj2 : ∀ h ∈ ver, h ∉ rest.map Meta.hash := fun h hh hc =>
        hdisj h hh (by simp [hc])
      obtain ⟨c1, c2, c3⟩ := verifyScan_invariant dks rest surv ver em hnd2 hdisj2
      exact ⟨fun h hh => (c1 h hh).imp id (fun hp => ⟨hp.1, by simp [hp.2]⟩), c2, c3⟩
    · rename_i hguard
      push_neg at hguard
      split
      · have hdisj2 : ∀ h ∈ insertNew ver m.hash, h ∉ rest.map Meta.hash := by
          intro h hh
          rcases (mem_insertNew ver m.hash h).mp hh with h1 | rfl
          · exact fun hc => hdisj h h1 (by simp [hc])
          · exact hmh
        obtain ⟨c1, c2, c3⟩ := verifyScan_invariant dks rest surv
          (insertNew ver m.hash) em hnd2 hdisj2
        refine ⟨?_, ?_, c3⟩
        · intro h hh
          rcases c1 h hh with h1 | hp
          · rcases (mem_insertNew ver m.hash h).mp h1 with h2 | rfl
            · exact Or.inl h2
            · exact Or.inr ⟨hguard.2, by simp⟩
          · exact Or.inr ⟨hp.1, by simp [hp.2]⟩
        · intro hvn
          exact c2 (nodup_insertNew _ _ hvn)
      · have hdisj2 : ∀ h ∈ ver, h ∉ rest.map Meta.hash := fun h hh hc =>
          hdisj h hh (by simp [hc])
        obtain ⟨c1, c2, c3⟩ := verifyScan_invariant dks rest surv ver
          (setdefaultPhase em m.hash "verify") hnd2 hdisj2
        refine ⟨fun h hh => (c1 h hh).imp id (fun hp => ⟨hp.1, by simp [hp.2]⟩), c2, ?_⟩
        intro e he
        rcases c3 e he with h1 | h1
        · rcases mem_setdefaultPhase em m.hash "verify" e h1 with h2 | h2
          · exact Or.inl h2
          · subst h2
            refine Or.inr ⟨rfl, ?_⟩
            intro hmem
            rcases c1 m.hash hmem with h3 | hp
            · exact hdisj m.hash h3 (by simp)
            · exact hmh hp.2
        · exact Or.inr h1

/-- Phase-3 preparation invariant: the verified set only shrinks, every hash
in the delete map was already there or comes from the processed snapshot,
and every new error entry is a `delete_prep` entry for a dropped file. -/
theorem deletePrep_invariant (lk dk : List String) (metas : List Meta)
    (snapshot : List String) :
    ∀ (todo ver : List String) (dels : List (String × List String))
      (em : List (String × String)),
      (deletePrep lk dk metas snapshot todo ver dels em).1.Sublist ver ∧
      (∀ pr ∈ (deletePrep lk dk metas snapshot todo ver dels em).2.1, ∀ x ∈ pr.2,
        (∃ pr0 ∈ dels, x ∈ pr0.2) ∨ x ∈ todo) ∧
      (∀ e ∈ (deletePrep lk dk metas snapshot todo ver dels em).2.2,
        e ∈ em ∨ (e.2 = "delete_prep" ∧
          e.1 ∉ (deletePrep lk dk metas snapshot todo ver dels em).1))
  | [], ver, dels, em =>
    ⟨List.Sublist.refl _, fun pr hpr x hx => Or.inl ⟨pr, hpr, hx⟩, fun _ he => Or.inl he⟩
  | h :: t, ver, dels, em => by
    rw [deletePrep]
    split
    · refine ⟨(deletePrep_invariant lk dk metas snapshot t _ _ _).1.trans
        (List.filter_sublist _), ?_, ?_⟩
      · intro pr hpr x hx
        rcases (deletePrep_invariant lk dk metas snapshot t _ _ _).2.1 pr hpr x hx with
          h1 | h1
        · exact Or.inl h1
        · exact Or.inr (List.mem_cons_of_mem _ h1)
      · intro e he
        rcases (deletePrep_invariant lk dk metas snapshot t _ _ _).2.2 e he with h1 | h1
        · rcases mem_setdefaultPhase em h "delete_prep" e h1 with h2 | h2
          · exact Or.inl h2
          · subst h2
            refine Or.inr ⟨rfl, ?_⟩
            intro hmem
            have hsub := (deletePrep_invariant lk dk metas snapshot t _ _ _).1.subset hmem
            rw [List.mem_filter] at hsub
            simp at hsub
        · exact Or.inr h1
    · refine ⟨(deletePrep_invariant lk dk metas snapshot t _ _ _).1, ?_,
        (deletePrep_invariant lk dk metas snapshot t _ _ _).2.2⟩
      intro pr hpr x hx
      rcases (deletePrep_invariant lk dk metas snapshot t _ _ _).2.1 pr hpr x hx with
        h1 | h1
      · rcases h1 with ⟨pr0, hpr0, hx0⟩
        rcases mem_foldl_appendAssoc h _ dels pr0 hpr0 x hx0 with h2 | rfl
        · exact Or.inl h2
        · exact Or.inr (List.mem_cons_self _ _)
      · exact Or.inr (List.mem_cons_of_mem _ h1)

/-- Phase-3 delete-loop invariant: the fully-successful set only shrinks,
and every new error entry is a `delete`-phase entry for a file that needed a
deletion and is no longer fully successful. -/
theorem deleteLoop_invariant (o : Oracle) (api : Bool) (bs : Nat) :
    ∀ (todo : List (String × List String)) (ok : List String)
      (em : List (String × String)) (calls : List FCall),
      (deleteLoop o api bs todo ok em calls).1.Sublist ok ∧
      (∀ e ∈ (deleteLoop o api bs todo ok em calls).2.1,
        e ∈ em ∨ (e.2 = "delete" ∧ e.1 ∉ (deleteLoop o api bs todo ok em calls).1 ∧
          ∃ pr ∈ todo, e.1 ∈ pr.2))
  | [], ok, em, calls => ⟨List.Sublist.refl _, fun _ he => Or.inl he⟩
  | (sk, hs) :: rest, ok, em, calls => by
    rw [deleteLoop]
    split
    · exact ⟨List.Sublist.refl _, fun _ he => Or.inl he⟩
    · simp only []
      refine ⟨(deleteLoop_invariant o api bs rest _ _ _).1.trans
        (List.filter_sublist _), ?_⟩
      intro e he
      rcases (deleteLoop_invariant o api bs rest _ _ _).2 e he with h1 | h1
      · rcases mem_foldl_setdefault "delete"
            (fun x : String × String × Option Int => x.1) _ em e h1 with h2 | ⟨x, hx, hex⟩
        · exact Or.inl h2
        · refine Or.inr ⟨by rw [hex], ?_, ?_⟩
          · rw [hex]
            intro hmem
            have hsub := (deleteLoop_invariant o api bs rest _ _ _).1.subset hmem
            rw [List.mem_filter] at hsub
            have hany : (batchApiCallWithRetry api (hs.filter (fun h => h ∈ ok)) bs
                (o.delBulk sk) (o.delSingle sk)).failedItemsWithErrors.any
                  (fun e => e.1 = x.1) = true :=
              List.any_eq_true.mpr ⟨x, hx, by simp⟩
            exact (of_decide_eq_true hsub.2) hany
          · refine ⟨(sk, hs), List.mem_cons_self _ _, ?_⟩
            rw [hex]
            have := batch_failed_input_mem api (hs.filter (fun h => h ∈ ok)) bs
              (o.delBulk sk) (o.delSingle sk) x hx
            exact List.mem_of_mem_filter this
      · rcases h1 with ⟨hph, hnot, pr, hpr, hx⟩
        exact Or.inr ⟨hph, hnot, pr, List.mem_cons_of_mem _ hpr, hx⟩

/-- The fully-successful accumulation is a sublist of the verified list. -/
theorem fullyLoop_sublist (dels : List (String × List String)) (ok : List String) :
    ∀ l : List String, (fullyLoop dels ok l).Sublist l
  | [] => by rw [fullyLoop]
  | h :: t => by
    rw [fullyLoop]
    split
    · exact (fullyLoop_sublist dels ok t).cons₂ h
    · split
      · exact (fullyLoop_sublist dels ok t).cons₂ h
      · exact (fullyLoop_sublist dels ok t).cons h

/-- Membership in the fully-successful accumulation: a verified file that
needed no deletion, or one that survived all its deletions. -/
theorem mem_fullyLoop (dels : List (String × List String)) (ok : List String) :
    ∀ (l : List String) (x : String),
      x ∈ fullyLoop dels ok l ↔
        x ∈ l ∧ ((¬ ∃ pr ∈ dels, x ∈ pr.2) ∨ x ∈ ok)
  | [], x => by simp [fullyLoop]
  | h :: t, x => by
    rw [fullyLoop]
    split
    · rename_i hnd
      rw [List.mem_cons, mem_fullyLoop dels ok t, List.mem_cons]
      constructor
      · rintro (rfl | ⟨hx, hcond⟩)
        · refine ⟨Or.inl rfl, Or.inl ?_⟩
          simpa [List.any_eq_true] using hnd
        · exact ⟨Or.inr hx, hcond⟩
      · rintro ⟨rfl | hx, hcond⟩
        · exact Or.inl rfl
        · exact Or.inr ⟨hx, hcond⟩
    · split
      · rename_i hnd hok
        rw [List.mem_cons, mem_fullyLoop dels ok t, List.mem_cons]
        constructor
        · rintro (rfl | ⟨hx, hcond⟩)
          · exact ⟨Or.inl rfl, Or.inr hok⟩
          · exact ⟨Or.inr hx, hcond⟩
        · rintro ⟨rfl | hx, hcond⟩
          · exact Or.inl rfl
          · exact Or.inr ⟨hx, hcond⟩
      · rename_i hnd hok
        rw [mem_fullyLoop dels ok t, List.mem_cons]
        constructor
        · rintro ⟨hx, hcond⟩
          exact ⟨Or.inr hx, hcond⟩
        · rintro ⟨rfl | hx, hcond⟩
          · rcases hcond with hcond | hcond
            · exfalso
              apply hcond
              have hany : dels.any (fun e => decide (x ∈ e.2)) = true := by
                by_contra hc
                exact hnd (by simpa using hc)
              simpa [List.any_eq_true] using hany
            · exact absurd hcond hok
          · exact ⟨hx, hcond⟩

/-- The metadata accumulated by the fetch loop: the data of each successful
batch, in order. -/
theorem fetchMetadataLoop_meta (o : Oracle) :
    ∀ (chs : List (List String)) (meta : List Meta) (errs : List FetchErr)
      (calls : List FCall),
      (fetchMetadataLoop o chs meta errs calls).1 =
        meta ++ chs.flatMap
          (fun c => if (o.fetchRes c).success then o.fetchData c else [])
  | [], meta, errs, calls => by simp [fetchMetadataLoop]
  | c :: rest, meta, errs, calls => by
    rw [fetchMetadataLoop]
    by_cases hc : (o.fetchRes c).success = true
    · rw [if_pos hc, fetchMetadataLoop_meta o rest]
      simp [hc, List.append_assoc]
    · rw [if_neg hc, fetchMetadataLoop_meta o rest]
      simp [hc]

/-- The hashes of per-batch fetched metadata form a sublist of the batched
hashes, under the API contract that each batch returns exactly its
hashes. -/
theorem flatMap_fetch_hash_sublist (o : Oracle)
    (hf : ∀ c, (o.fetchData c).map Meta.hash = c) :
    ∀ chs : List (List String),
      ((chs.flatMap
        (fun c => if (o.fetchRes c).success then o.fetchData c else [])).map
          Meta.hash).Sublist chs.flatten
  | [] => by simp
  | c :: rest => by
    rw [List.flatMap_cons, List.flatten_cons, List.map_append]
    by_cases hc : (o.fetchRes c).success = true
    · rw [if_pos hc, hf c]
      exact (flatMap_fetch_hash_sublist o hf rest).append_left c
    · rw [if_neg hc]
      simp only [List.map_nil, List.nil_append]
      exact (flatMap_fetch_hash_sublist o hf rest).trans (List.sublist_append_right _ _)

/-- Under the API contract, the fresh metadata fetched for a duplicate-free
hash list carries each hash at most once. -/
theorem fetchMetadata_hash_nodup (o : Oracle)
    (hf : ∀ c, (o.fetchData c).map Meta.hash = c) (surv : List String)
    (hnd : surv.Nodup) :
    ((fetchMetadata o true surv 256).1.map Meta.hash).Nodup := by
  unfold fetchMetadata
  split
  · simp
  · rw [if_neg (by simp)]
    rw [fetchMetadataLoop_meta o]
    simp only [List.nil_append]
    have hsub := flatMap_fetch_hash_sublist o hf (chunks 256 surv)
    rw [chunks_flatten 256 (by omega) surv] at hsub
    exact hsub.nodup hnd

/-- A filter that loses no length keeps every element. -/
theorem filter_length_eq_keeps {p : α → Bool} :
    ∀ l : List α, (l.filter p).length = l.length → ∀ a ∈ l, p a = true
  | [], _, a, ha => by simp at ha
  | b :: t, h, a, ha => by
    by_cases hb : p b = true
    · rw [List.filter_cons_of_pos hb] at h
      simp only [List.length_cons] at h
      rcases List.mem_cons.mp ha with rfl | ha
      · exact hb
      · exact filter_length_eq_keeps t (by omega) a ha
    · exfalso
      rw [List.filter_cons_of_neg hb] at h
      have := List.length_filter_le p t
      simp only [List.length_cons] at h
      omega

/-- Phase-3 specification: assuming every error so far is a copy-phase entry
for a non-survivor or a verify-phase entry for an unverified file, and the
verified list is a duplicate-free subset of the survivors, the stage-3
result respects the per-phase error discipline and its success flag forces a
complete fully-successful set. -/
theorem forceInStage3_spec (o : Oracle) (api : Bool) (bs initial : Nat)
    (dks localKeys surv : List String) (freshMeta : List Meta)
    (ver : List String) (em3 : List (String × String)) (calls2 : List FCall)
    (hem3 : ∀ e ∈ em3, (e.2 = "copy" ∧ e.1 ∉ surv) ∨ (e.2 = "verify" ∧ e.1 ∉ ver))
    (hver_sub : ∀ h ∈ ver, h ∈ surv) (hver_nd : ver.Nodup) :
    ∀ r : ForceInResult,
      r = forceInStage3 o api bs initial dks localKeys surv freshMeta ver em3 calls2 →
      ((∀ h ph, (h, ph) ∈ r.filesWithErrors →
          h ∉ r.filesFullySuccessful ∧
          (ph = "copy" → h ∉ r.copySurvivors ∧ h ∉ r.verified ∧
            ∀ d ∈ r.deletions, h ∉ d.2) ∧
          (ph = "verify" → h ∉ r.verified ∧ ∀ d ∈ r.deletions, h ∉ d.2)) ∧
        (r.success = true → r.filesWithErrors = [] ∧ r.filesFullySuccessful.Nodup ∧
          (∀ h ∈ r.filesFullySuccessful, h ∈ ver) ∧
          r.filesFullySuccessful.length = initial)) := by
  intro r hr
  rw [forceInStage3] at hr
  split at hr
  · rename_i hve
    have hv : ver = [] := by simpa [List.isEmpty_iff] using hve
    subst hr
    constructor
    · intro h ph hmem
      simp only [] at hmem ⊢
      refine ⟨by simp, ?_, ?_⟩
      · intro hcopy
        rcases hem3 (h, ph) hmem with h1 | h1
        · exact ⟨h1.2, by simp [hv], by simp⟩
        · rw [hcopy] at h1
          simp at h1
      · intro hverify
        exact ⟨by simp [hv], by simp⟩
    · intro hs
      simp at hs
  · rename_i hve
    simp only [] at hr
    subst hr
    obtain ⟨p1, p2, p3⟩ :=
      deletePrep_invariant localKeys dks freshMeta ver ver ver [] em3
    obtain ⟨d1, d2⟩ := deleteLoop_invariant o api bs
      (deletePrep localKeys dks freshMeta ver ver ver [] em3).2.1
      (deletePrep localKeys dks freshMeta ver ver ver [] em3).1
      (deletePrep localKeys dks freshMeta ver ver ver [] em3).2.2 calls2
    have hdels_val : ∀ pr ∈ (deletePrep localKeys dks freshMeta ver ver ver [] em3).2.1,
        ∀ x ∈ pr.2, x ∈ ver := by
      intro pr hpr x hx
      rcases p2 pr hpr x hx with h1 | h1
      · simp at h1
      · exact h1
    have hfully_sub : ∀ x ∈ fullyLoop
        (deletePrep localKeys dks freshMeta ver ver ver [] em3).2.1
        (deleteLoop o api bs
          (deletePrep localKeys dks freshMeta ver ver ver [] em3).2.1
          (deletePrep localKeys dks freshMeta ver ver ver [] em3).1
          (deletePrep localKeys dks freshMeta ver ver ver [] em3).2.2 calls2).1
        (deletePrep localKeys dks freshMeta ver ver ver [] em3).1,
        x ∈ (deletePrep localKeys dks freshMeta ver ver ver [] em3).1 :=
      fun x hx => (fullyLoop_sublist _ _ _).subset hx
    constructor
    · intro h ph hmem
      simp only [] at hmem ⊢
      have hnotfully_of_notver : h ∉ ver →
          h ∉ fullyLoop
            (deletePrep localKeys dks freshMeta ver ver ver [] em3).2.1
            (deleteLoop o api bs
              (deletePrep localKeys dks freshMeta ver ver ver [] em3).2.1
              (deletePrep localKeys dks freshMeta ver ver ver [] em3).1
              (deletePrep localKeys dks freshMeta ver ver ver [] em3).2.2 calls2).1
            (deletePrep localKeys dks freshMeta ver ver ver [] em3).1 := by
        intro hnv hmem2
        exact hnv (p1.subset (hfully_sub h hmem2))
      rcases d2 (h, ph) hmem with h1 | h1
      · rcases p3 (h, ph) h1 with h2 | h2
        · rcases hem3 (h, ph) h2 with h3 | h3
          · have hnv : h ∉ ver := fun hc => h3.2 (hver_sub h hc)
            refine ⟨hnotfully_of_notver hnv, ?_, ?_⟩
            · intro _
              exact ⟨h3.2, hnv, fun d hd hc => hnv (hdels_val d hd h hc)⟩
            · intro hverify
              rw [hverify] at h3
              simp at h3
          · refine ⟨hnotfully_of_notver h3.2, ?_, ?_⟩
            · intro hcopy
              rw [hcopy] at h3
              simp at h3
            · intro _
              exact ⟨h3.2, fun d hd hc => h3.2 (hdels_val d hd h hc)⟩
        · refine ⟨?_, ?_, ?_⟩
          · intro hmem2
            exact h2.2 (hfully_sub h hmem2)
          · intro hcopy
            rw [hcopy] at h2
            simp at h2
          · intro hverify
            rw [hverify] at h2
            simp at h2
      · rcases h1 with ⟨hph, hnot, pr, hpr, hx⟩
        refine ⟨?_, ?_, ?_⟩
        · intro hmem2
          rcases (mem_fullyLoop _ _ _ h).mp hmem2 with ⟨_, hc | hc⟩
          · exact hc ⟨pr, hpr, hx⟩
          · exact hnot hc
        · intro hcopy
          rw [hcopy] at hph
          simp at hph
        · intro hverify
          rw [hverify] at hph
          simp at hph
    · intro hs
      simp only [] at hs
      rw [Bool.and_eq_true] at hs
      have hemnil : (deleteLoop o api bs
          (deletePrep localKeys dks freshMeta ver ver ver [] em3).2.1
          (deletePrep localKeys dks freshMeta ver ver ver [] em3).1
          (deletePrep localKeys dks freshMeta ver ver ver [] em3).2.2 calls2).2.1 = [] := by
        simpa [List.isEmpty_iff] using hs.1
      have hlen : (fullyLoop
          (deletePrep localKeys dks freshMeta ver ver ver [] em3).2.1
          (deleteLoop o api bs
            (deletePrep localKeys dks freshMeta ver ver ver [] em3).2.1
            (deletePrep localKeys dks freshMeta ver ver ver [] em3).1
            (deletePrep localKeys dks freshMeta ver ver ver [] em3).2.2 calls2).1
          (deletePrep localKeys dks freshMeta ver ver ver [] em3).1).length = initial := by
        have := hs.2
        simpa using this
      refine ⟨hemnil, ?_, ?_, hlen⟩
      · exact ((fullyLoop_sublist _ _ _).trans p1).nodup hver_nd
      · intro h hh
        exact p1.subset (hfully_sub h hh)

/-- Phase-2 specification: assuming the incoming errors are copy-phase
entries for non-survivors, a duplicate-free survivor list, and the metadata
API contract, the stage-2 result respects the per-phase error discipline
and its success flag forces a complete fully-successful set drawn from the
survivors. -/
theorem forceInStage2_spec (o : Oracle) (bs initial : Nat)
    (dks localKeys surv : List String) (em1 : List (String × String))
    (calls1 : List FCall)
    (hf : ∀ c, (o.fetchData c).map Meta.hash = c)
    (hem1 : ∀ e ∈ em1, e.2 = "copy" ∧ e.1 ∉ surv)
    (hsnd : surv.Nodup) :
    ∀ r : ForceInResult,
      r = forceInStage2 o true bs initial dks localKeys surv em1 calls1 →
      ((∀ h ph, (h, ph) ∈ r.filesWithErrors →
          h ∉ r.filesFullySuccessful ∧
          (ph = "copy" → h ∉ r.copySurvivors ∧ h ∉ r.verified ∧
            ∀ d ∈ r.deletions, h ∉ d.2) ∧
          (ph = "verify" → h ∉ r.verified ∧ ∀ d ∈ r.deletions, h ∉ d.2)) ∧
        (r.success = true → r.filesWithErrors = [] ∧ r.filesFullySuccessful.Nodup ∧
          (∀ h ∈ r.filesFullySuccessful, h ∈ surv) ∧
          r.filesFullySuccessful.length = initial)) := by
  intro r hr
  rw [forceInStage2] at hr
  split at hr
  · subst hr
    constructor
    · intro h ph hmem
      simp only [] at hmem ⊢
      obtain ⟨hph, hns⟩ := hem1 (h, ph) hmem
      refine ⟨by simp, ?_, ?_⟩
      · intro _
        exact ⟨hns, by simp, by simp⟩
      · intro hverify
        rw [hverify] at hph
        simp at hph
    · intro hs
      simp at hs
  · rename_i hve
    simp only [] at hr
    obtain ⟨v1, v2⟩ := verifyDiscard_invariant (fetchMetadata o true surv 256).2.1 surv em1
    have hnodupFM := fetchMetadata_hash_nodup o hf surv hsnd
    obtain ⟨s1, s2, s3⟩ := verifyScan_invariant dks (fetchMetadata o true surv 256).1
      (verifyDiscard (fetchMetadata o true surv 256).2.1 surv em1).1 []
      (verifyDiscard (fetchMetadata o true surv 256).2.1 surv em1).2
      hnodupFM (by simp)
    have hver_sub2 : ∀ h ∈ (verifyScan dks (fetchMetadata o true surv 256).1
        (verifyDiscard (fetchMetadata o true surv 256).2.1 surv em1).1 []
        (verifyDiscard (fetchMetadata o true surv 256).2.1 surv em1).2).1,
        h ∈ (verifyDiscard (fetchMetadata o true surv 256).2.1 surv em1).1 := by
      intro h hh
      rcases s1 h hh with h1 | h1
      · simp at h1
      · exact h1.1
    have hver_sub : ∀ h ∈ (verifyScan dks (fetchMetadata o true surv 256).1
        (verifyDiscard (fetchMetadata o true surv 256).2.1 surv em1).1 []
        (verifyDiscard (fetchMetadata o true surv 256).2.1 surv em1).2).1, h ∈ surv :=
      fun h hh => v1.subset (hver_sub2 h hh)
    have hem3 : ∀ e ∈ (verifyScan dks (fetchMetadata o true surv 256).1
        (verifyDiscard (fetchMetadata o true surv 256).2.1 surv em1).1 []
        (verifyDiscard (fetchMetadata o true surv 256).2.1 surv em1).2).2,
        (e.2 = "copy" ∧ e.1 ∉ surv) ∨ (e.2 = "verify" ∧
          e.1 ∉ (verifyScan dks (fetchMetadata o true surv 256).1
            (verifyDiscard (fetchMetadata o true surv 256).2.1 surv em1).1 []
            (verifyDiscard (fetchMetadata o true surv 256).2.1 surv em1).2).1) := by
      intro e he
      rcases s3 e he with h1 | h1
      · rcases v2 e h1 with h2 | h2
        · exact Or.inl (hem1 e h2)
        · refine Or.inr ⟨h2.1, fun hc => h2.2 (hver_sub2 e.1 hc)⟩
      · exact Or.inr h1
    have hver_nd : (verifyScan dks (fetchMetadata o true surv 256).1
        (verifyDiscard (fetchMetadata o true surv 256).2.1 surv em1).1 []
        (verifyDiscard (fetchMetadata o true surv 256).2.1 surv em1).2).1.Nodup :=
      s2 List.nodup_nil
    obtain ⟨c1, c2⟩ := forceInStage3_spec o true bs initial dks localKeys surv
      (fetchMetadata o true surv 256).1 _ _ _ hem3 hver_sub hver_nd r hr
    refine ⟨c1, ?_⟩
    intro hs
    obtain ⟨e1, e2, e3, e4⟩ := c2 hs
    exact ⟨e1, e2, fun h hh => hver_sub h (e3 h hh), e4⟩

/-- The three-phase discipline claimed for `force_in_services`: every file
with a recorded error is keyed by the phase of its first failure and appears
in no later phase (copy failures reach neither the verify input, the
verified set, the delete lists, nor the final set; verify failures reach
neither the verified set nor the delete lists; no errored file is ever fully
successful), and the returned success flag is true only if there is no
recorded per-file error and every initial candidate ended fully
successful. -/
def forceInPhaseSpec (fm : List Meta) (r : ForceInResult) : Prop :=
  (∀ h ph, (h, ph) ∈ r.filesWithErrors →
      h ∉ r.filesFullySuccessful ∧
      (ph = "copy" → h ∉ r.copySurvivors ∧ h ∉ r.verified ∧
        ∀ d ∈ r.deletions, h ∉ d.2) ∧
      (ph = "verify" → h ∉ r.verified ∧ ∀ d ∈ r.deletions, h ∉ d.2)) ∧
  (r.success = true → r.filesWithErrors = [] ∧
    ∀ m ∈ fm, m.hash ∈ r.filesFullySuccessful)

/-- Claim C4: `force_in_services` is three-phase over the candidates — a
file failing a phase is recorded under that phase's name and appears in no
later phase, and the overall success flag is true only if every initial
candidate ends in `files_fully_successful` with no recorded per-file
error — under the metadata-API contract (a fetch returns exactly the
requested hashes) and a positive batch size. -/
theorem forceInServices_phase_spec (o : Oracle) (avail : List (String × Int))
    (fm : List Meta) (dks : List String) (bs : Nat) (hbs : 0 < bs)
    (hfetch : ∀ c, (o.fetchData c).map Meta.hash = c) :
    forceInPhaseSpec fm (forceInServices o true avail fm dks bs) := by
  unfold forceInPhaseSpec forceInServices
  simp only []
  split
  · rename_i hfe
    have hfm : fm = [] := by simpa [List.isEmpty_iff] using hfe
    constructor
    · intro h ph hmem
      simp at hmem
    · intro _
      refine ⟨rfl, ?_⟩
      intro m hm
      rw [hfm] at hm
      simp at hm
  · split
    · constructor
      · intro h ph hmem
        simp at hmem
      · intro hs
        simp at hs
    · obtain ⟨k1, k2⟩ := copyPhase_invariant o true bs dks
        (dedupKeepFirst ((fm.filter (fun m => m.hash ≠ "")).map (fun m => m.hash))) [] []
      have hem1 : ∀ e ∈ (copyPhase o true bs dks
          (dedupKeepFirst ((fm.filter (fun m => m.hash ≠ "")).map
            (fun m => m.hash))) [] []).2.1,
          e.2 = "copy" ∧ e.1 ∉ (copyPhase o true bs dks
            (dedupKeepFirst ((fm.filter (fun m => m.hash ≠ "")).map
              (fun m => m.hash))) [] []).1 := by
        intro e he
        rcases k2 e he with h1 | h1
        · simp at h1
        · exact h1
      have hsnd : (copyPhase o true bs dks
          (dedupKeepFirst ((fm.filter (fun m => m.hash ≠ "")).map
            (fun m => m.hash))) [] []).1.Nodup :=
        k1.nodup (nodup_dedupKeepFirst _)
      obtain ⟨c1, c2⟩ := forceInStage2_spec o bs fm.length dks
        (dedupKeepFirst ((avail.filter (fun s => s.2 = 2)).map (fun s => s.1)))
        (copyPhase o true bs dks
          (dedupKeepFirst ((fm.filter (fun m => m.hash ≠ "")).map
            (fun m => m.hash))) [] []).1
        (copyPhase o true bs dks
          (dedupKeepFirst ((fm.filter (fun m => m.hash ≠ "")).map
            (fun m => m.hash))) [] []).2.1
        (copyPhase o true bs dks
          (dedupKeepFirst ((fm.filter (fun m => m.hash ≠ "")).map
            (fun m => m.hash))) [] []).2.2
        hfetch hem1 hsnd _ rfl
      refine ⟨c1, ?_⟩
      intro hs
      obtain ⟨e1, e2, e3, e4⟩ := c2 hs
      refine ⟨e1, ?_⟩
      have hsub2 : ∀ h ∈ (forceInStage2 o true bs fm.length dks
          (dedupKeepFirst ((avail.filter (fun s => s.2 = 2)).map (fun s => s.1)))
          (copyPhase o true bs dks
            (dedupKeepFirst ((fm.filter (fun m => m.hash ≠ "")).map
              (fun m => m.hash))) [] []).1
          (copyPhase o true bs dks
            (dedupKeepFirst ((fm.filter (fun m => m.hash ≠ "")).map
              (fun m => m.hash))) [] []).2.1
          (copyPhase o true bs dks
            (dedupKeepFirst ((fm.filter (fun m => m.hash ≠ "")).map
              (fun m => m.hash))) [] []).2.2).filesFullySuccessful,
          h ∈ dedupKeepFirst ((fm.filter (fun m => m.hash ≠ "")).map
            (fun m => m.hash)) :=
        fun h hh => k1.subset (e3 h hh)
      have hsp := List.Nodup.subperm e2 (fun h hh => hsub2 h hh)
      have hlen2 : (dedupKeepFirst ((fm.filter (fun m => m.hash ≠ "")).map
          (fun m => m.hash))).length ≤
          ((fm.filter (fun m => m.hash ≠ "")).map (fun m => m.hash)).length :=
        length_dedupKeepFirst_le _
      have hlen3 : ((fm.filter (fun m => m.hash ≠ "")).map
          (fun m => m.hash)).length ≤ fm.length := by
        rw [List.length_map]
        exact List.length_filter_le _ _
      have hlen1 := hsp.length_le
      have hperm := hsp.perm_of_length_le (by omega)
      have hfl : ((fm.filter (fun m => m.hash ≠ "")).length) = fm.length := by
        have := List.length_map (fm.filter (fun m => m.hash ≠ "")) (fun m => m.hash)
        omega
      intro m hm
      have hmk : (fun m : Meta => decide (m.hash ≠ "")) m = true :=
        filter_length_eq_keeps fm hfl m hm
      have hm2 : m ∈ fm.filter (fun m => m.hash ≠ "") :=
        List.mem_filter.mpr ⟨hm, hmk⟩
      have hm3 : m.hash ∈ (fm.filter (fun m => m.hash ≠ "")).map (fun m => m.hash) :=
        List.mem_map.mpr ⟨m, hm2, rfl⟩
      have hm4 := (mem_dedupKeepFirst _ _).mpr hm3
      exact (hperm.mem_iff).mpr hm4

/-- The metadata-API contract holds for the all-success oracle. -/
theorem trivialOracle_fetch_contract :
    ∀ c, ((trivialOracle.fetchData c).map Meta.hash = c) := by
  intro c
  induction c with
  | nil => rfl
  | cons a t ih => simpa [trivialOracle] using ih

/-- Witness for `forceInServices_phase_spec` at a concrete three-file
run. -/
theorem forceInServices_phase_spec_witness :
    forceInPhaseSpec [⟨"a", ["L1"]⟩, ⟨"b", ["L1"]⟩, ⟨"c", ["L2"]⟩]
      (forceInServices trivialOracle true [("d1", 2), ("L1", 2)]
        [⟨"a", ["L1"]⟩, ⟨"b", ["L1"]⟩, ⟨"c", ["L2"]⟩] ["d1"] 64) :=
  forceInServices_phase_spec trivialOracle [("d1", 2), ("L1", 2)]
    [⟨"a", ["L1"]⟩, ⟨"b", ["L1"]⟩, ⟨"c", ["L2"]⟩] ["d1"] 64
    (by decide) trivialOracle_fetch_contract

end Hydrus
